import Mathlib

/-!
Shallow embedding of the tinyjira sprint-board core, for checking its
specification.  Two source files are modelled:

* the re-plan engine (`priorityWeight`, `topoSort`, `replan`), and
* the CSV-backed persistence layer (`parseCSV`, `serializeCSV`, the
  status/priority vocabulary mappers, `csvRowToIssue`, `issueToCSVRow`,
  `readTasks` and `writeTasks`).

JavaScript numbers are modelled as `Int` (ids, indices) and `Rat`
(estimate hours, capacities); JS objects used as keyed maps are modelled
as functions updated with `Function.update`; `parseInt` results are
`Option Int` (`none` in place of `NaN`).  All definitions are executable
so that concrete runs can be checked with `decide`.
-/

namespace SB

/-- Issue record as produced by `csvRowToIssue` and consumed by `replan`.
`rawRow` is `none` when the issue carries no original CSV row. -/
structure Issue where
  id : Int
  key : String
  title : String
  description : String
  status : String
  priority : String
  assignee : String
  estimateHours : Rat
  dependsOn : List Int
  sprint : Nat
  rawRow : Option (List String)
deriving DecidableEq

/-- Subtraction of rationals in a kernel-computable form; equal to `a - b`
(lemma `ratSub_eq` below), used so that concrete schedules evaluate
under `decide`. -/
def ratSub (a b : Rat) : Rat :=
  mkRat (a.num * b.den - b.num * a.den) (a.den * b.den)

/-- Multiplication by 3600 in a kernel-computable form; equal to
`q * 3600` (lemma `ratMul3600_eq` below). -/
def ratMul3600 (q : Rat) : Rat :=
  mkRat (q.num * 3600) q.den

/-- Priority weight used for sorting (replan.js `priorityWeight`): lower
is scheduled first, unknown priorities come last. -/
def priorityWeight (p : String) : Nat :=
  if p == "high" then 0
  else if p == "medium" then 1
  else if p == "low" then 2
  else 3

/-- Truthiness of `byId[d]`: whether some issue of the set has id `d`. -/
def present (issues : List Issue) (d : Int) : Bool :=
  issues.any (fun i => i.id == d)

/-- Dependencies of `i` that are members of the issue set (the ones that
contribute to in-degree and to the dependents lists). -/
def presentDeps (issues : List Issue) (i : Issue) : List Int :=
  i.dependsOn.filter (present issues)

/-- Initial in-degree of one issue: its in-set dependencies, counted with
multiplicity exactly as the `deps.forEach` increment loop does. -/
def degInit (issues : List Issue) (i : Issue) : Nat :=
  (presentDeps issues i).length

/-- Lookup `byId[d]`: JS object writes are last-one-wins, so the last
issue with the given id is returned. -/
def byId (issues : List Issue) (d : Int) : Option Issue :=
  (issues.filter (fun i => i.id == d)).getLast?

/-- In-degree table after the two build passes of `topoSort` (`inDegree`),
modelled as a total function; only keys that are issue ids are read. -/
def deg0 (issues : List Issue) : Int → Int :=
  issues.foldl
    (fun f i =>
      (presentDeps issues i).foldl
        (fun g _ => Function.update g i.id (g i.id + 1)) f)
    (fun _ => 0)

/-- Dependents list `dependents[d]`: for every issue and every occurrence
of an in-set dependency equal to `d`, the issue's id is pushed. -/
def dependentsOf (issues : List Issue) (d : Int) : List Int :=
  issues.flatMap (fun i =>
    (i.dependsOn.filter (fun dep => dep == d && present issues dep)).map
      (fun _ => i.id))

/-- Strict comparator of the ready queue: by priority weight, then by key
(replan.js sort comparator, `cmp < 0` case). -/
def ltQ (a b : Issue) : Bool :=
  priorityWeight a.priority < priorityWeight b.priority ||
    (priorityWeight a.priority == priorityWeight b.priority && a.key < b.key)

/-- Insert one freed issue into the queue before the first strictly
greater element, else push it at the end (the `freed.forEach` insertion). -/
def insertQueue (f : Issue) : List Issue → List Issue
  | [] => [f]
  | q :: qs => if ltQ f q then f :: q :: qs else q :: insertQueue f qs

/-- Insertion step of the comparator sort used on the seed queue and on
freed batches. -/
def insSorted (x : Issue) : List Issue → List Issue
  | [] => [x]
  | y :: ys => if ltQ y x then y :: insSorted x ys else x :: y :: ys

/-- Comparator sort (JS `Array.prototype.sort` with the priority/key
comparator). -/
def sortQ (l : List Issue) : List Issue :=
  l.foldr insSorted []

/-- Sequential decrement of the in-degrees of the dependents of the issue
just output, collecting ids that reach exactly zero (the `freed` list). -/
def decFreed (ds : List Int) (deg : Int → Int) : (Int → Int) × List Int :=
  match ds with
  | [] => (deg, [])
  | d :: rest =>
      let deg1 := Function.update deg d (deg d - 1)
      let r := decFreed rest deg1
      (r.1, if deg1 d == 0 then d :: r.2 else r.2)

/-- Main loop of `topoSort` (the `while (queue.length > 0)` loop).  The
fuel argument only bounds the iteration count; `topoSort` supplies fuel
that is never exhausted (one issue is output per iteration, and an issue
enters the queue at most once per unit of initial in-degree or seed). -/
def topoLoop (issues : List Issue) :
    Nat → List Issue → (Int → Int) → List Issue → List Issue
  | _, [], _, result => result
  | 0, _ :: _, _, result => result
  | fuel + 1, x :: queue, deg, result =>
      let dr := decFreed (dependentsOf issues x.id) deg
      let freed := dr.2.filterMap (byId issues)
      let queue2 := (sortQ freed).foldl (fun q f => insertQueue f q) queue
      topoLoop issues fuel queue2 dr.1 (result ++ [x])

/-- Total number of in-set dependency edges; used to size the fuel. -/
def degTotal (issues : List Issue) : Nat :=
  (issues.map (fun i => degInit issues i)).sum

/-- Topological sort of issues respecting `dependsOn`, with priority then
key as the ready order (replan.js `topoSort`). -/
def topoSort (issues : List Issue) : List Issue :=
  let deg := deg0 issues
  let seed := sortQ (issues.filter (fun i => deg i.id == 0))
  topoLoop issues (issues.length + degTotal issues) seed deg []

/-- Capacity for a member: the team table entry if present, else the
default 80 (`teamCapacity[member] != null ? ... : 80`). -/
def capOf (tc : String → Option Rat) (m : String) : Rat :=
  (tc m).getD 80

/-- Remaining-hours table right after creation: every (sprint, member)
cell lazily initialises to the member's capacity, so the pure model is
the constant table of capacities. -/
def initRem (tc : String → Option Rat) : Nat → String → Rat :=
  fun _ m => capOf tc m

/-- Capacity scan (`while (true)` loop of `replan`): starting at
`earliest`, stop at the first sprint with enough remaining capacity
(flag `false`), or bail out one past the ceiling of 100 (flag `true`).
The fuel models the number of loop iterations; `none` means the loop did
not finish within the given fuel. -/
def scanLoop (rem : Nat → String → Rat) (member : String) (hours : Rat) :
    Nat → Nat → Option (Nat × Bool)
  | 0, _ => none
  | fuel + 1, sprint =>
      if hours ≤ rem sprint member then some (sprint, false)
      else if 100 < sprint + 1 then some (sprint + 1, true)
      else scanLoop rem member hours fuel (sprint + 1)

/-- Capacity scan with fuel 102, which always suffices (proved below in
`scanLoop_some_of_fuel`); the default is never used. -/
def scanSprint (rem : Nat → String → Rat) (member : String) (hours : Rat)
    (earliest : Nat) : Nat × Bool :=
  (scanLoop rem member hours 102 earliest).getD (101, true)

/-- Earliest admissible sprint of an issue: the maximum sprint already
assigned to any of its dependencies, starting from 1 (the `deps.forEach`
maximum in `replan`). -/
def maxDepSprint (issueSprint : Int → Option Nat) (deps : List Int) : Nat :=
  deps.foldl
    (fun e d =>
      match issueSprint d with
      | some s => if e < s then s else e
      | none => e) 1

/-- Copy of an issue with its `sprint` field assigned. -/
def setSprint (i : Issue) (s : Nat) : Issue :=
  { i with sprint := s }

/-- State of the greedy placement pass: output so far (paired with a flag
that records whether the capacity scan bailed at the ceiling), the
per-issue sprint table, and the per-(sprint, member) remaining hours. -/
structure PlaceState where
  out : List (Issue × Bool)
  issueSprint : Int → Option Nat
  rem : Nat → String → Rat

/-- One step of the placement pass (`sorted.forEach` body of `replan`):
unassigned or zero-estimate issues take `earliest` without consuming
capacity, others scan from `earliest` and consume their hours. -/
def placeStep (st : PlaceState) (issue : Issue) : PlaceState :=
  let earliest := maxDepSprint st.issueSprint issue.dependsOn
  let hours := issue.estimateHours
  let member := issue.assignee
  if member == "" || hours == 0 then
    { out := st.out ++ [(setSprint issue earliest, false)]
      issueSprint := Function.update st.issueSprint issue.id (some earliest)
      rem := st.rem }
  else
    let sc := scanSprint st.rem member hours earliest
    { out := st.out ++ [(setSprint issue sc.1, sc.2)]
      issueSprint := Function.update st.issueSprint issue.id (some sc.1)
      rem := fun s m =>
        if s == sc.1 && m == member then ratSub (st.rem s m) hours
        else st.rem s m }

/-- Initial placement state. -/
def initPlace (tc : String → Option Rat) : PlaceState :=
  { out := [], issueSprint := fun _ => none, rem := initRem tc }

/-- Instrumented `replan`: the scheduled sequence in topological order,
each issue paired with the flag saying whether its placement bailed at
the scan ceiling. -/
def replanAux (issues : List Issue) (tc : String → Option Rat) :
    List (Issue × Bool) :=
  ((topoSort issues).foldl placeStep (initPlace tc)).out

/-- The re-plan entry point: the reordered issues with `sprint` fields
assigned (replan.js `replan`). -/
def replan (issues : List Issue) (tc : String → Option Rat) : List Issue :=
  (replanAux issues tc).map Prod.fst

/-! CSV codec (`parseCSV` / `serializeCSV`). -/

/-- Result of `parseCSV`: header row plus data rows. -/
structure CSVOut where
  headers : List String
  dataRows : List (List String)
deriving DecidableEq

/-- Character-level state machine of `parseCSV`: current quote state,
accumulated field, accumulated row, accumulated rows.  Mirrors the
`while (i < text.length)` loop including the `\r\n` lookahead and the
doubled-quote escape. -/
def parseRows : List Char → Bool → List Char → List String → List (List String) →
    List (List String)
  | [], _, field, row, rows =>
      if field ≠ [] ∨ row ≠ [] then rows ++ [row ++ [String.mk field]] else rows
  | '"' :: '"' :: rest, true, field, row, rows =>
      parseRows rest true (field ++ ['"']) row rows
  | '"' :: rest, true, field, row, rows => parseRows rest false field row rows
  | c :: rest, true, field, row, rows => parseRows rest true (field ++ [c]) row rows
  | '"' :: rest, false, field, row, rows => parseRows rest true field row rows
  | ',' :: rest, false, field, row, rows =>
      parseRows rest false [] (row ++ [String.mk field]) rows
  | '\n' :: rest, false, field, row, rows =>
      parseRows rest false [] [] (rows ++ [row ++ [String.mk field]])
  | '\r' :: '\n' :: rest, false, field, row, rows =>
      parseRows rest false [] [] (rows ++ [row ++ [String.mk field]])
  | c :: rest, false, field, row, rows => parseRows rest false (field ++ [c]) row rows

/-- CSV parser: first row is the header row; blank lines (single empty
field) are dropped from the data rows. -/
def parseCSV (text : String) : CSVOut :=
  let rows := parseRows text.data false [] [] []
  { headers := rows.headD []
    dataRows := rows.tail.filter (fun r => decide (1 < r.length) || r.headD "" != "") }

/-- Quoting test of `escapeField`: comma, quote, or either newline
character forces quoting. -/
def hasSpecial (s : String) : Bool :=
  s.data.any (fun c => c == ',' || c == '"' || c == '\n' || c == '\r')

/-- Double every quote character (the `replace(/"/g, '""')`). -/
def escapeChars (cs : List Char) : List Char :=
  cs.flatMap (fun c => if c == '"' then ['"', '"'] else [c])

/-- Field escaping on serialization. -/
def escapeField (s : String) : String :=
  if hasSpecial s then String.mk ('"' :: (escapeChars s.data ++ ['"'])) else s

/-- Join character lists with a separator character (JS `join`). -/
def joinWith (sep : Char) : List (List Char) → List Char
  | [] => []
  | [x] => x
  | x :: y :: rest => x ++ sep :: joinWith sep (y :: rest)

/-- Pad or truncate a row to the header length (the serializer's
`for (let i = 0; i < headers.length; i++)` loop). -/
def padRow (headers : List String) (row : List String) : List String :=
  (List.range headers.length).map (fun i => row.getD i "")

/-- CSV serializer: header line then padded data lines, joined with a
newline, with a trailing newline. -/
def serializeCSV (headers : List String) (dataRows : List (List String)) : String :=
  let lines :=
    (headers.map escapeField) ::
      dataRows.map (fun row => (padRow headers row).map escapeField)
  String.mk (joinWith '\n' (lines.map (fun fields =>
    joinWith ',' (fields.map String.data))) ++ ['\n'])

/-! Vocabulary mappers. -/

/-- Whitespace recognised when trimming (model of JS `trim`). -/
def isSpaceChar (c : Char) : Bool :=
  c == ' ' || c == '\t' || c == '\n' || c == '\r'

/-- String trim (JS `String.prototype.trim` for the ASCII whitespace the
data uses). -/
def jsTrim (s : String) : String :=
  String.mk (((s.data.dropWhile isSpaceChar).reverse.dropWhile isSpaceChar).reverse)

/-- ASCII lower-casing (model of JS `toLowerCase` on the vocabulary). -/
def lowerChar (c : Char) : Char :=
  if 65 ≤ c.toNat ∧ c.toNat ≤ 90 then Char.ofNat (c.toNat + 32) else c

/-- Lower-case a string. -/
def lowerStr (s : String) : String :=
  String.mk (s.data.map lowerChar)

/-- The `STATUS_TO_INTERNAL` lookup table. -/
def statusTable : List (String × String) :=
  [("open", "todo"), ("to do", "todo"), ("backlog", "todo"),
   ("in refinement", "todo"), ("new", "todo"), ("reopened", "todo"),
   ("in progress", "inprogress"), ("in development", "inprogress"),
   ("in review", "inprogress"),
   ("done", "done"), ("closed", "done"), ("resolved", "done")]

/-- External status to internal enum, defaulting to `todo`. -/
def mapStatusToInternal (csvStatus : String) : String :=
  (statusTable.lookup (jsTrim (lowerStr csvStatus))).getD "todo"

/-- Internal status back to the canonical external label. -/
def mapStatusToCSV (internalStatus : String) : String :=
  if internalStatus == "todo" then "Open"
  else if internalStatus == "inprogress" then "In Progress"
  else if internalStatus == "done" then "Done"
  else "Open"

/-- The `PRIORITY_TO_INTERNAL` lookup table. -/
def priorityTable : List (String × String) :=
  [("blocker", "high"), ("critical", "high"), ("highest", "high"), ("high", "high"),
   ("major", "medium"), ("medium", "medium"), ("normal", "medium"),
   ("minor", "low"), ("low", "low"), ("trivial", "low"), ("lowest", "low")]

/-- External priority to internal enum, defaulting to `medium`. -/
def mapPriorityToInternal (csvPriority : String) : String :=
  (priorityTable.lookup (jsTrim (lowerStr csvPriority))).getD "medium"

/-- Internal priority back to the canonical external label. -/
def mapPriorityToCSV (internalPriority : String) : String :=
  if internalPriority == "high" then "Critical"
  else if internalPriority == "medium" then "Major"
  else if internalPriority == "low" then "Minor"
  else "Major"

/-! Row and column helpers. -/

/-- Column index record built by `buildColIndices`; `-1` means the column
is absent. -/
structure ColIdx where
  summary : Int
  issueKey : Int
  issueId : Int
  issueType : Int
  status : Int
  priority : Int
  assignee : Int
  description : Int
  originalEstimate : Int
  depends : Int
  finishToStart : Int
  sprintCol : Int
deriving DecidableEq

/-- First index of a header name, `-1` if absent (`headers.indexOf`). -/
def findColIndex (headers : List String) (name : String) : Int :=
  match headers.findIdx? (fun h => h == name) with
  | some i => (i : Int)
  | none => -1

/-- Build the column index record from the header row. -/
def buildColIndices (headers : List String) : ColIdx :=
  { summary := findColIndex headers "Summary"
    issueKey := findColIndex headers "Issue key"
    issueId := findColIndex headers "Issue id"
    issueType := findColIndex headers "Issue Type"
    status := findColIndex headers "Status"
    priority := findColIndex headers "Priority"
    assignee := findColIndex headers "Assignee"
    description := findColIndex headers "Description"
    originalEstimate := findColIndex headers "Original Estimate"
    depends := findColIndex headers "Inward issue link (Depends)"
    finishToStart := findColIndex headers "Inward issue link (Finish to Start)"
    sprintCol := findColIndex headers "Sprint" }

/-- Read a cell; out-of-range or negative index yields the empty string. -/
def getCell (row : List String) (idx : Int) : String :=
  if idx < 0 then "" else row.getD idx.toNat ""

/-- Write a cell, padding the row with empty strings as needed; negative
index is a no-op. -/
def setCell (row : List String) (idx : Int) (v : String) : List String :=
  if idx < 0 then row
  else (row ++ List.replicate (idx.toNat + 1 - row.length) "").set idx.toNat v

/-! Numeric parsing (JS `parseInt(..., 10)`). -/

/-- Value of an accumulated digit run. -/
def digitsToNat (ds : List Char) : Nat :=
  ds.foldl (fun n c => 10 * n + (c.toNat - 48)) 0

/-- Model of `parseInt(s, 10)`: skip leading whitespace, optional sign,
then the longest leading digit run; `none` models `NaN`. -/
def jsParseInt (s : String) : Option Int :=
  let cs := s.data.dropWhile isSpaceChar
  match cs with
  | '-' :: rest =>
      let ds := rest.takeWhile Char.isDigit
      if ds.isEmpty then none else some (-(digitsToNat ds : Int))
  | '+' :: rest =>
      let ds := rest.takeWhile Char.isDigit
      if ds.isEmpty then none else some ((digitsToNat ds : Int))
  | _ =>
      let ds := cs.takeWhile Char.isDigit
      if ds.isEmpty then none else some ((digitsToNat ds : Int))

/-! Loading (`csvRowToIssue`, `readTasks`). -/

/-- Split a character list at semicolons (core of the
`raw.split(/\s*;\s*/)`; the surrounding-whitespace part of the regex is
subsumed by the `trim` applied to every piece right after). -/
def splitSemi : List Char → List (List Char)
  | [] => [[]]
  | ';' :: rest => [] :: splitSemi rest
  | c :: rest =>
      match splitSemi rest with
      | [] => [[c]]
      | p :: ps => (c :: p) :: ps

/-- Parse one dependency-link cell into trimmed, non-empty tokens. -/
def parseDepsField (raw : String) : List String :=
  if jsTrim raw == "" then []
  else ((splitSemi raw.data).map (fun p => jsTrim (String.mk p))).filter
    (fun s => s != "")

/-- First-occurrence deduplication (the `[...new Set(...)]`). -/
def dedupKeep (l : List String) : List String :=
  l.foldl (fun acc x => if acc.contains x then acc else acc ++ [x]) []

/-- Issue as first built from a CSV row, before dependency tokens are
resolved to ids: `idOpt` is `none` when the id cell did not parse. -/
structure RawIssue where
  idOpt : Option Int
  key : String
  title : String
  description : String
  status : String
  priority : String
  assignee : String
  estimateHours : Rat
  depTokens : List String
  rawRow : List String
deriving DecidableEq

/-- Build a `RawIssue` from one data row (`csvRowToIssue`). -/
def csvRowToIssue (ci : ColIdx) (row : List String) : RawIssue :=
  let estimateSec := jsParseInt (getCell row ci.originalEstimate)
  let deps1 := parseDepsField (getCell row ci.depends)
  let deps2 := parseDepsField (getCell row ci.finishToStart)
  { idOpt := jsParseInt (getCell row ci.issueId)
    key := getCell row ci.issueKey
    title := getCell row ci.summary
    description := getCell row ci.description
    status := mapStatusToInternal (getCell row ci.status)
    priority := mapPriorityToInternal (getCell row ci.priority)
    assignee := getCell row ci.assignee
    estimateHours :=
      match estimateSec with
      | none => 0
      | some n => mkRat n 3600
    depTokens := dedupKeep (deps1 ++ deps2)
    rawRow := row }

/-- Key-to-id map over the loaded issues; later issues overwrite earlier
ones with the same key, as JS object assignment does. -/
def keyToId (raws : List RawIssue) : String → Option Int :=
  raws.foldl (fun f r => Function.update f r.key r.idOpt) (fun _ => none)

/-- Resolve one dependency token: `keyToId[dep] || parseInt(dep, 10)`,
including the JS quirk that a key mapped to id 0 falls through to
`parseInt`; `none` results are dropped by the caller's `filter`. -/
def resolveDepToken (km : String → Option Int) (tok : String) : Option Int :=
  match km tok with
  | some v => if v == 0 then jsParseInt tok else some v
  | none => jsParseInt tok

/-- Final `Issue` from a `RawIssue` once all keys are known. -/
def resolveRaw (km : String → Option Int) (r : RawIssue) : Issue :=
  { id := r.idOpt.getD 0
    key := r.key
    title := r.title
    description := r.description
    status := r.status
    priority := r.priority
    assignee := r.assignee
    estimateHours := r.estimateHours
    dependsOn := r.depTokens.filterMap (resolveDepToken km)
    sprint := 1
    rawRow := some r.rawRow }

/-- Index of the last dash of a key (`lastIndexOf('-')`). -/
def lastDashIdx (cs : List Char) : Int :=
  match cs.reverse.findIdx? (fun c => c == '-') with
  | some j => (cs.length : Int) - 1 - (j : Int)
  | none => -1

/-- Project key derived from the first issue's key by stripping the
trailing dash suffix; fallback "SB". -/
def deriveProjectKey (raws : List RawIssue) : String :=
  match raws with
  | [] => "SB"
  | r :: _ =>
      if r.key == "" then "SB"
      else
        let dash := lastDashIdx r.key.data
        if 0 < dash then String.mk (r.key.data.take dash.toNat) else "SB"

/-- The state container returned by `readTasks`. -/
structure ServerState where
  nextId : Int
  projectKey : String
  sprintStart : String
  teamCapacity : String → Option Rat
  issues : List Issue
  csvHeaders : List String

/-- Core of `readTasks` on already-parsed rows: build issues, drop rows
with unparseable ids, derive `nextId` and the project key, then resolve
dependency tokens to ids.  The capacity table is always empty. -/
def loadRows (headers : List String) (dataRows : List (List String)) : ServerState :=
  let ci := buildColIndices headers
  let raws := (dataRows.map (csvRowToIssue ci)).filter (fun r => r.idOpt.isSome)
  let maxId := raws.foldl (fun m r => max m (r.idOpt.getD 0)) 0
  let km := keyToId raws
  { nextId := maxId + 1
    projectKey := deriveProjectKey raws
    sprintStart := "2026-02-15"
    teamCapacity := fun _ => none
    issues := raws.map (resolveRaw km)
    csvHeaders := headers }

/-- The `readTasks` entry point: `none` models the missing-file catch
branch. -/
def loadState : Option String → ServerState
  | none =>
      { nextId := 1, projectKey := "SB", sprintStart := "2026-02-15",
        teamCapacity := fun _ => none, issues := [], csvHeaders := [] }
  | some text =>
      let p := parseCSV text
      loadRows p.headers p.dataRows

/-! Saving (`issueToCSVRow`, `writeTasks`). -/

/-- Headers installed by `writeTasks` when none were loaded. -/
def defaultHeaders : List String :=
  ["Summary", "Issue key", "Issue id", "Issue Type", "Status", "Project key",
   "Project name", "Project type", "Project lead", "Project description",
   "Project url", "Priority", "Resolution", "Assignee", "Reporter", "Creator",
   "Created", "Updated", "Last Viewed", "Resolved", "Affects Version/s",
   "Fix Version/s", "Component/s", "Due Date", "Votes", "Description",
   "Inward issue link (Depends)", "Inward issue link (Finish to Start)"]

/-- JS `Math.round`, i.e. the floor of `q + 1/2`, written as the floor
division of `2 * num + den` by `2 * den` so that it computes. -/
def jsRound (q : Rat) : Int :=
  (2 * q.num + q.den).fdiv (2 * q.den)

/-- Dependency ids joined as the cell text (`dependsOn.join('; ')` after
the ids were stringified). -/
def depsJoin (deps : List Int) : String :=
  String.intercalate "; " (deps.map (fun d => toString d))

/-- Rebuild one CSV row from an issue (`issueToCSVRow`): start from the
issue's retained raw row (else the prior row, else a blank row), then
overwrite the modeled columns. -/
def issueToCSVRow (ci : ColIdx) (headerLen : Nat) (issue : Issue)
    (existingRow : Option (List String)) : List String :=
  let base :=
    match issue.rawRow with
    | some r => r
    | none =>
        match existingRow with
        | some e => e
        | none => List.replicate headerLen ""
  let r1 := setCell base ci.summary issue.title
  let r2 := setCell r1 ci.issueKey issue.key
  let r3 := setCell r2 ci.issueId (toString issue.id)
  let r4 := setCell r3 ci.status (mapStatusToCSV issue.status)
  let r5 := setCell r4 ci.priority (mapPriorityToCSV issue.priority)
  let r6 := setCell r5 ci.assignee issue.assignee
  let r7 := setCell r6 ci.description issue.description
  let r8 := setCell r7 ci.originalEstimate
    (if issue.estimateHours == 0 then ""
     else toString (jsRound (ratMul3600 issue.estimateHours)))
  let depsStr := depsJoin issue.dependsOn
  let r9 := if 0 ≤ ci.depends then setCell r8 ci.depends depsStr else r8
  if 0 ≤ ci.finishToStart then setCell r9 ci.finishToStart depsStr else r9

/-- Row-level core of `writeTasks`: original rows whose id is still
present are rewritten in place and original order, rows with missing or
deleted ids are dropped, and issues with no original row are appended at
the end.  (The JS `existingById`/`newRows` pre-pass feeds only the
discarded `newRows` array and has no effect on the persisted output.) -/
def saveRows (headers : List String) (origRows : List (List String))
    (st : ServerState) : List (List String) :=
  let headers2 := if headers.length == 0 then defaultHeaders else headers
  let origRows2 := if headers.length == 0 then ([] : List (List String)) else origRows
  let ci := buildColIndices headers2
  let updatedIds := st.issues.map (fun i => i.id)
  let keptRows := origRows2.filterMap (fun row =>
    (jsParseInt (getCell row ci.issueId)).bind (fun id =>
      if updatedIds.contains id then
        (st.issues.find? (fun i => i.id == id)).map
          (fun issue => issueToCSVRow ci headers2.length issue (some row))
      else none))
  let appendedIds := origRows2.filterMap (fun row =>
    (jsParseInt (getCell row ci.issueId)).bind (fun id =>
      if updatedIds.contains id then some id else none))
  keptRows ++
    ((st.issues.filter (fun i => !(appendedIds.contains i.id))).map
      (fun i => issueToCSVRow ci headers2.length i none))

/-! Concrete-input helper. -/

/-- Issue literal helper for concrete runs of the scheduler. -/
def mkIssue (id : Int) (key priority assignee : String) (hours : Rat)
    (deps : List Int) : Issue :=
  { id := id, key := key, title := "", description := "", status := "todo",
    priority := priority, assignee := assignee, estimateHours := hours,
    dependsOn := deps, sprint := 1, rawRow := none }

/-! Specification-level predicates used by the theorems below. -/

/-- Sum of estimate hours of scheduled issues landing in sprint `s` for
assignee `a`, excluding placements that bailed at the scan ceiling (the
sum the capacity invariant bounds). -/
def sprintAssigneeHours (out : List (Issue × Bool)) (s : Nat) (a : String) : Rat :=
  ((out.filter (fun p => p.1.sprint == s && p.1.assignee == a && !p.2)).map
    (fun p => p.1.estimateHours)).sum

/-- A scheduled entry that actually consumed capacity at (sprint `s`,
assignee `a`): right sprint, right assignee, nonzero estimate. -/
def consumingAt (s : Nat) (a : String) (p : Issue × Bool) : Bool :=
  p.1.sprint == s && p.1.assignee == a && !(p.1.estimateHours == 0)

/-- Capacity-consuming hours at (s, a) of placements that found room. -/
def hoursNC (out : List (Issue × Bool)) (s : Nat) (a : String) : Rat :=
  ((out.filter (fun p => consumingAt s a p && !p.2)).map
    (fun p => p.1.estimateHours)).sum

/-- Capacity-consuming hours at (s, a) of ceiling-bailed placements. -/
def hoursCeil (out : List (Issue × Bool)) (s : Nat) (a : String) : Rat :=
  ((out.filter (fun p => consumingAt s a p && p.2)).map
    (fun p => p.1.estimateHours)).sum

/-- Invariant of the placement fold: for every sprint and every named
assignee, the non-ceiling consumed hours fit the capacity, ceiling
consumption is nonnegative, and the remaining-hours table is the
capacity minus everything consumed. -/
def CapInv (tc : String → Option Rat) (st : PlaceState) : Prop :=
  ∀ s a, a ≠ "" →
    hoursNC st.out s a ≤ capOf tc a ∧
    0 ≤ hoursCeil st.out s a ∧
    st.rem s a = capOf tc a - (hoursNC st.out s a + hoursCeil st.out s a)

/-- Prefix closure of a schedule: every issue's in-set dependencies occur
strictly earlier in the sequence. -/
def OrderClosed (issues : List Issue) (R : List Issue) : Prop :=
  ∀ A y B, R = A ++ y :: B → ∀ d ∈ presentDeps issues y, ∃ j ∈ A, j.id = d

/-- Number of distinct scheduled predecessors: occurrences of in-set
dependencies of `y` whose id is already in `R`. -/
def outCount (issues : List Issue) (R : List Issue) (y : Issue) : Nat :=
  (presentDeps issues y).countP (fun d => R.any (fun j => j.id == d))

/-- Dependency edge on ids: `d` is an in-set dependency of the issue with
id `e`. -/
def DepRel (issues : List Issue) (d e : Int) : Prop :=
  ∃ i ∈ issues, i.id = e ∧ d ∈ i.dependsOn ∧ present issues d = true

/-- Loop invariant of the ready-queue topological sort: output and queue
are issues of the set with pairwise distinct ids, the in-degree table
equals initial in-degree minus the already-output in-set dependencies,
queued issues have all their in-set dependencies already output, and the
output is prefix-closed. -/
structure TopoInv (issues : List Issue) (queue : List Issue)
    (deg : Int → Int) (R : List Issue) : Prop where
  rsub : ∀ j ∈ R, j ∈ issues
  qsub : ∀ j ∈ queue, j ∈ issues
  nodup : ((R ++ queue).map Issue.id).Nodup
  degEq : ∀ y ∈ issues,
    deg y.id = (degInit issues y : Int) - (outCount issues R y : Int)
  qdeps : ∀ y ∈ queue, ∀ d ∈ presentDeps issues y, ∃ j ∈ R, j.id = d
  closed : OrderClosed issues R

/-- All dependency tokens of the retained (parseable-id) rows, used to
state where load-time dependency ids can come from. -/
def loadDepTokens (headers : List String) (dataRows : List (List String)) :
    List String :=
  ((dataRows.map (csvRowToIssue (buildColIndices headers))).filter
    (fun r => r.idOpt.isSome)).flatMap (fun r => r.depTokens)

/-! Theorems. -/

/-- Computable subtraction agrees with `Rat` subtraction. -/
theorem ratSub_eq (a b : Rat) : ratSub a b = a - b :=
  (Rat.sub_def' a b).symm

/-- Computable scaling agrees with multiplication by 3600. -/
theorem ratMul3600_eq (q : Rat) : ratMul3600 q = q * 3600 := by
  rw [ratMul3600, Rat.mkRat_eq_divInt, Rat.divInt_eq_div]
  push_cast
  rw [mul_comm (q.num : ℚ) 3600, mul_div_assoc, Rat.num_div_den, mul_comm]

/-- The hours loaded from a seconds cell are the seconds divided by 3600. -/
theorem mkRat_3600_eq (n : Int) : mkRat n 3600 = (n : ℚ) / 3600 := by
  rw [Rat.mkRat_eq_divInt, Rat.divInt_eq_div]
  norm_num

/-! Lemmas about the capacity scan (`scanLoop` / `scanSprint`). -/

/-- Fuel 102 always suffices for the capacity scan: the loop body runs at
most `101 - start + 1` times. -/
theorem scanLoop_some_of_fuel (rem : Nat → String → Rat) (m : String) (h : Rat) :
    ∀ fuel s, 101 - s < fuel → (scanLoop rem m h fuel s).isSome = true := by
  intro fuel
  induction fuel with
  | zero => intro s hs; omega
  | succ n ih =>
      intro s _
      rw [scanLoop]
      split
      · rfl
      · split
        · rfl
        · apply ih
          omega

/-- If no sprint from the start through the ceiling 100 has enough
remaining capacity, the scan returns sprint 101 with the ceiling flag. -/
theorem scanLoop_ceiling (rem : Nat → String → Rat) (m : String) (h : Rat) :
    ∀ fuel s, s ≤ 100 → (∀ t, s ≤ t → t ≤ 100 → ¬ h ≤ rem t m) →
      101 - s < fuel → scanLoop rem m h fuel s = some (101, true) := by
  intro fuel
  induction fuel with
  | zero => intro s _ _ hf; omega
  | succ n ih =>
      intro s hs hall hf
      rw [scanLoop]
      rw [if_neg (hall s le_rfl hs)]
      by_cases hc : 100 < s + 1
      · have : s = 100 := by omega
        subst this
        simp
      · rw [if_neg hc]
        exact ih (s + 1) (by omega) (fun t ht1 ht2 => hall t (by omega) ht2) (by omega)

/-- The scan never returns a sprint before its starting point. -/
theorem scanLoop_ge (rem : Nat → String → Rat) (m : String) (h : Rat) :
    ∀ fuel s r, scanLoop rem m h fuel s = some r → s ≤ r.1 := by
  intro fuel
  induction fuel with
  | zero => intro s r hr; simp [scanLoop] at hr
  | succ n ih =>
      intro s r hr
      rw [scanLoop] at hr
      split at hr
      · cases hr; exact le_rfl
      · split at hr
        · cases hr; exact Nat.le_succ s
        · exact Nat.le_of_succ_le (ih (s + 1) r hr)

/-- A scan that did not bail at the ceiling found a sprint with enough
remaining capacity. -/
theorem scanLoop_found (rem : Nat → String → Rat) (m : String) (h : Rat) :
    ∀ fuel s r, scanLoop rem m h fuel s = some r → r.2 = false →
      h ≤ rem r.1 m := by
  intro fuel
  induction fuel with
  | zero => intro s r hr; simp [scanLoop] at hr
  | succ n ih =>
      intro s r hr hflag
      rw [scanLoop] at hr
      split at hr
      · cases hr
        assumption
      · split at hr
        · cases hr
          cases hflag
        · exact ih (s + 1) r hr hflag

/-- Existence form of fuel sufficiency for `scanSprint`. -/
theorem scanSprint_eq_scanLoop (rem : Nat → String → Rat) (m : String) (h : Rat)
    (e : Nat) : scanLoop rem m h 102 e = some (scanSprint rem m h e) := by
  have hs := scanLoop_some_of_fuel rem m h 102 e (by omega)
  rcases ho : scanLoop rem m h 102 e with _ | r
  · rw [ho] at hs
    cases hs
  · rw [scanSprint, ho]
    rfl

/-- The assigned sprint is at least the earliest admissible one. -/
theorem scanSprint_ge (rem : Nat → String → Rat) (m : String) (h : Rat) (e : Nat) :
    e ≤ (scanSprint rem m h e).1 :=
  scanLoop_ge rem m h 102 e _ (scanSprint_eq_scanLoop rem m h e)

/-- A placement that did not bail at the ceiling fits in the remaining
capacity of the chosen sprint. -/
theorem scanSprint_found (rem : Nat → String → Rat) (m : String) (h : Rat) (e : Nat)
    (hflag : (scanSprint rem m h e).2 = false) :
    h ≤ rem (scanSprint rem m h e).1 m :=
  scanLoop_found rem m h 102 e _ (scanSprint_eq_scanLoop rem m h e) hflag

/-- Claim C7 (amended): the capacity scan always terminates — 102 loop
iterations always suffice — and scanning is bounded by the fixed sprint
ceiling 100; an issue for which no sprint from `earliest` up to the
ceiling has sufficient remaining capacity is assigned sprint 101, one
past the ceiling, with the ceiling flag set, rather than looping
unboundedly. -/
theorem scan_bounded_and_overflow (rem : Nat → String → Rat) (m : String)
    (h : Rat) (earliest : Nat) :
    (scanLoop rem m h 102 earliest).isSome = true ∧
    (earliest ≤ 100 → (∀ t, earliest ≤ t → t ≤ 100 → ¬ h ≤ rem t m) →
      scanSprint rem m h earliest = (101, true)) := by
  refine ⟨scanLoop_some_of_fuel rem m h 102 earliest (by omega), fun he hall => ?_⟩
  have := scanLoop_ceiling rem m h 102 earliest he hall (by omega)
  have h2 := scanSprint_eq_scanLoop rem m h earliest
  rw [this] at h2
  exact (Option.some_inj.mp h2).symm

/-- Witness for C7 (amended) at a concrete input: with 80 hours of
capacity everywhere and a 200-hour issue, the scan bails at (101, true). -/
theorem scan_bounded_and_overflow_witness :
    (scanLoop (fun _ _ => 80) "Alice" 200 102 1).isSome = true ∧
    scanSprint (fun _ _ => 80) "Alice" 200 1 = (101, true) := by
  refine ⟨(scan_bounded_and_overflow (fun _ _ => 80) "Alice" 200 1).1, ?_⟩
  exact (scan_bounded_and_overflow (fun _ _ => 80) "Alice" 200 1).2 (by omega)
    (fun t _ _ => by norm_num)

/-! Permutation and membership lemmas for the queue operations. -/

/-- Queue insertion is a permutation of consing. -/
theorem insertQueue_perm (f : Issue) (q : List Issue) :
    List.Perm (insertQueue f q) (f :: q) := by
  induction q with
  | nil => exact List.Perm.refl _
  | cons y ys ih =>
      rw [insertQueue]
      split
      · exact List.Perm.refl _
      · exact (List.Perm.cons y ih).trans (List.Perm.swap f y ys)

/-- Sorted insertion is a permutation of consing. -/
theorem insSorted_perm (x : Issue) (l : List Issue) :
    List.Perm (insSorted x l) (x :: l) := by
  induction l with
  | nil => exact List.Perm.refl _
  | cons y ys ih =>
      rw [insSorted]
      split
      · exact (List.Perm.cons y ih).trans (List.Perm.swap x y ys)
      · exact List.Perm.refl _

/-- The comparator sort is a permutation. -/
theorem sortQ_perm (l : List Issue) : List.Perm (sortQ l) l := by
  induction l with
  | nil => exact List.Perm.refl _
  | cons y ys ih =>
      exact (insSorted_perm y (sortQ ys)).trans (List.Perm.cons y ih)

/-- Inserting a batch of freed issues permutes to prepending them. -/
theorem foldl_insertQueue_perm (l q : List Issue) :
    List.Perm (l.foldl (fun q2 f => insertQueue f q2) q) (l ++ q) := by
  induction l generalizing q with
  | nil => exact List.Perm.refl _
  | cons a l ih =>
      refine ((ih (insertQueue a q)).trans ?_).trans List.perm_middle
      exact List.Perm.append_left l (insertQueue_perm a q)

/-- Members delivered by `byId` are issues of the set with the asked id. -/
theorem byId_mem (issues : List Issue) (d : Int) (j : Issue)
    (h : byId issues d = some j) : j ∈ issues ∧ j.id = d := by
  have hm : j ∈ issues.filter (fun i => i.id == d) :=
    List.mem_of_mem_getLast? (Option.mem_def.mpr h)
  rcases List.mem_filter.mp hm with ⟨h1, h2⟩
  exact ⟨h1, by simpa using h2⟩

/-- Every issue output by the topological loop is an issue of the set. -/
theorem topoLoop_mem (issues : List Issue) : ∀ fuel queue deg R,
    (∀ j ∈ queue, j ∈ issues) → (∀ j ∈ R, j ∈ issues) →
    ∀ j ∈ topoLoop issues fuel queue deg R, j ∈ issues := by
  intro fuel
  induction fuel with
  | zero =>
      intro queue deg R _ hr j hj
      cases queue with
      | nil => exact hr j (by simpa [topoLoop] using hj)
      | cons x qs => exact hr j (by simpa [topoLoop] using hj)
  | succ n ih =>
      intro queue deg R hq hr j hj
      cases queue with
      | nil => exact hr j (by simpa [topoLoop] using hj)
      | cons x qs =>
          rw [topoLoop] at hj
          refine ih _ _ _ (fun j2 hj2 => ?_) (fun j2 hj2 => ?_) j hj
          · have := (foldl_insertQueue_perm _ qs).mem_iff.mp hj2
            rcases List.mem_append.mp this with hL | hR
            · have := (sortQ_perm _).mem_iff.mp hL
              rcases List.mem_filterMap.mp this with ⟨d, _, hd⟩
              exact (byId_mem issues d j2 hd).1
            · exact hq j2 (List.mem_cons_of_mem x hR)
          · rcases List.mem_append.mp hj2 with hL | hR
            · exact hr j2 hL
            · rw [List.mem_singleton.mp hR]
              exact hq x (List.mem_cons_self x qs)

/-- Every issue output by `topoSort` is an issue of the set. -/
theorem topoSort_mem (issues : List Issue) : ∀ j ∈ topoSort issues, j ∈ issues := by
  intro j hj
  rw [topoSort] at hj
  refine topoLoop_mem issues _ _ _ _ (fun j2 hj2 => ?_)
    (fun _ h => absurd h (List.not_mem_nil _)) j hj
  have := (sortQ_perm _).mem_iff.mp hj2
  exact (List.mem_filter.mp this).1

/-! Capacity invariant of the placement pass (claim C2). -/

/-- Setting the sprint leaves the estimate unchanged. -/
theorem setSprint_hours (i : Issue) (s : Nat) :
    (setSprint i s).estimateHours = i.estimateHours := rfl

/-- Setting the sprint leaves the id unchanged. -/
theorem setSprint_id (i : Issue) (s : Nat) : (setSprint i s).id = i.id := rfl

/-- Setting the sprint sets the sprint. -/
theorem setSprint_sprint (i : Issue) (s : Nat) : (setSprint i s).sprint = s := rfl

/-- Shape of the placement step on a capacity-free issue. -/
theorem placeStep_free (st : PlaceState) (y : Issue)
    (hfree : (y.assignee == "" || y.estimateHours == 0) = true) :
    placeStep st y =
      { out := st.out ++
          [(setSprint y (maxDepSprint st.issueSprint y.dependsOn), false)]
        issueSprint := Function.update st.issueSprint y.id
          (some (maxDepSprint st.issueSprint y.dependsOn))
        rem := st.rem } := by
  rw [placeStep, if_pos hfree]

/-- Shape of the placement step on a capacity-consuming issue. -/
theorem placeStep_cap (st : PlaceState) (y : Issue)
    (hfree : ¬ (y.assignee == "" || y.estimateHours == 0) = true) :
    placeStep st y =
      { out := st.out ++
          [(setSprint y (scanSprint st.rem y.assignee y.estimateHours
              (maxDepSprint st.issueSprint y.dependsOn)).1,
            (scanSprint st.rem y.assignee y.estimateHours
              (maxDepSprint st.issueSprint y.dependsOn)).2)]
        issueSprint := Function.update st.issueSprint y.id
          (some (scanSprint st.rem y.assignee y.estimateHours
            (maxDepSprint st.issueSprint y.dependsOn)).1)
        rem := fun s m =>
          if s == (scanSprint st.rem y.assignee y.estimateHours
                (maxDepSprint st.issueSprint y.dependsOn)).1 &&
              m == y.assignee then
            ratSub (st.rem s m) y.estimateHours
          else st.rem s m } := by
  rw [placeStep, if_neg hfree]

/-- Sum over an appended singleton, for the hour-sum shapes used here. -/
theorem sum_filter_app (p : Issue × Bool → Bool) (l : List (Issue × Bool))
    (e : Issue × Bool) :
    (((l ++ [e]).filter p).map (fun q => q.1.estimateHours)).sum =
      ((l.filter p).map (fun q => q.1.estimateHours)).sum +
        (if p e then e.1.estimateHours else 0) := by
  rw [List.filter_append, List.map_append, List.sum_append]
  by_cases hp : p e <;> simp [hp]

/-- Appending one placement to the non-ceiling consumption sum. -/
theorem hoursNC_app (out : List (Issue × Bool)) (e : Issue × Bool) (s : Nat)
    (a : String) :
    hoursNC (out ++ [e]) s a = hoursNC out s a +
      (if (consumingAt s a e && !e.2) = true then e.1.estimateHours else 0) := by
  rw [hoursNC, hoursNC, sum_filter_app]

/-- Appending one placement to the ceiling consumption sum. -/
theorem hoursCeil_app (out : List (Issue × Bool)) (e : Issue × Bool) (s : Nat)
    (a : String) :
    hoursCeil (out ++ [e]) s a = hoursCeil out s a +
      (if (consumingAt s a e && e.2) = true then e.1.estimateHours else 0) := by
  rw [hoursCeil, hoursCeil, sum_filter_app]

/-- One placement step preserves the capacity invariant, provided the
issue's estimate is nonnegative. -/
theorem placeStep_capInv (tc : String → Option Rat) (st : PlaceState) (y : Issue)
    (hy : 0 ≤ y.estimateHours) (hinv : CapInv tc st) :
    CapInv tc (placeStep st y) := by
  by_cases hfree : (y.assignee == "" || y.estimateHours == 0) = true
  · rw [placeStep_free st y hfree]
    intro s a ha
    obtain ⟨h1, h2, h3⟩ := hinv s a ha
    have hcons : consumingAt s a
        (setSprint y (maxDepSprint st.issueSprint y.dependsOn), false) = false := by
      rcases Bool.or_eq_true_iff.mp hfree with hA | hH
      · have h0 : y.assignee = "" := by simpa using hA
        simp [consumingAt, setSprint, h0, Ne.symm ha]
      · simp [consumingAt, setSprint, hH]
    refine ⟨?_, ?_, ?_⟩
    · rw [hoursNC_app, if_neg (by simp [hcons]), add_zero]
      exact h1
    · rw [hoursCeil_app, if_neg (by simp [hcons]), add_zero]
      exact h2
    · rw [hoursNC_app, hoursCeil_app, if_neg (by simp [hcons]),
        if_neg (by simp [hcons]), add_zero, add_zero]
      exact h3
  · rw [placeStep_cap st y hfree]
    have hmem : ¬ y.assignee = "" ∧ ¬ y.estimateHours = 0 := by
      constructor
      · intro hA
        exact hfree (by simp [hA])
      · intro hH
        exact hfree (by simp [hH])
    intro s a ha
    obtain ⟨h1, h2, h3⟩ := hinv s a ha
    by_cases hsa : s = (scanSprint st.rem y.assignee y.estimateHours
        (maxDepSprint st.issueSprint y.dependsOn)).1 ∧ a = y.assignee
    · obtain ⟨rfl, rfl⟩ := hsa
      set sc := scanSprint st.rem y.assignee y.estimateHours
        (maxDepSprint st.issueSprint y.dependsOn) with hscdef
      have hcons : ∀ b, consumingAt sc.1 y.assignee (setSprint y sc.1, b) = true := by
        intro b
        simp [consumingAt, setSprint, hmem.2]
      have hremS : (if sc.1 == sc.1 && y.assignee == y.assignee then
          ratSub (st.rem sc.1 y.assignee) y.estimateHours
          else st.rem sc.1 y.assignee) =
          st.rem sc.1 y.assignee - y.estimateHours := by
        rw [if_pos (by simp), ratSub_eq]
      cases hflag : sc.2 with
      | false =>
          have hfit : y.estimateHours ≤ st.rem sc.1 y.assignee := by
            have hf2 : (scanSprint st.rem y.assignee y.estimateHours
                (maxDepSprint st.issueSprint y.dependsOn)).2 = false := by
              rw [← hscdef]
              exact hflag
            have hle := scanSprint_found st.rem y.assignee y.estimateHours
              (maxDepSprint st.issueSprint y.dependsOn) hf2
            rwa [← hscdef] at hle
          rw [h3] at hfit
          have hNCeq : hoursNC (st.out ++ [(setSprint y sc.1, false)]) sc.1
              y.assignee = hoursNC st.out sc.1 y.assignee + y.estimateHours := by
            rw [hoursNC_app, if_pos (by simp [hcons])]
            dsimp only
            rw [setSprint_hours]
          have hCeq : hoursCeil (st.out ++ [(setSprint y sc.1, false)]) sc.1
              y.assignee = hoursCeil st.out sc.1 y.assignee := by
            rw [hoursCeil_app]
            dsimp only
            rw [Bool.and_false, if_neg Bool.false_ne_true, add_zero]
          refine ⟨?_, ?_, ?_⟩
          · rw [hNCeq]
            linarith
          · rw [hCeq]
            exact h2
          · dsimp only
            rw [hNCeq, hCeq, hremS, h3]
            ring
      | true =>
          have hNCeq : hoursNC (st.out ++ [(setSprint y sc.1, true)]) sc.1
              y.assignee = hoursNC st.out sc.1 y.assignee := by
            rw [hoursNC_app]
            dsimp only
            rw [Bool.not_true, Bool.and_false, if_neg Bool.false_ne_true, add_zero]
          have hCeq : hoursCeil (st.out ++ [(setSprint y sc.1, true)]) sc.1
              y.assignee = hoursCeil st.out sc.1 y.assignee + y.estimateHours := by
            rw [hoursCeil_app, if_pos (by simp [hcons])]
            dsimp only
            rw [setSprint_hours]
          refine ⟨?_, ?_, ?_⟩
          · rw [hNCeq]
            exact h1
          · rw [hCeq]
            linarith
          · dsimp only
            rw [hNCeq, hCeq, hremS, h3]
            ring
    · have hcons : consumingAt s a (setSprint y
          (scanSprint st.rem y.assignee y.estimateHours
            (maxDepSprint st.issueSprint y.dependsOn)).1,
          (scanSprint st.rem y.assignee y.estimateHours
            (maxDepSprint st.issueSprint y.dependsOn)).2) = false := by
        rcases not_and_or.mp hsa with hs | hA
        · simp [consumingAt, setSprint, Ne.symm hs]
        · have hne : (y.assignee == a) = false :=
            beq_eq_false_iff_ne.mpr (fun h => hA h.symm)
          simp [consumingAt, setSprint, hne]
      have hrem : (if s == (scanSprint st.rem y.assignee y.estimateHours
            (maxDepSprint st.issueSprint y.dependsOn)).1 && a == y.assignee then
          ratSub (st.rem s a) y.estimateHours else st.rem s a) = st.rem s a := by
        rcases not_and_or.mp hsa with hs | hA
        · rw [if_neg]
          simp only [Bool.and_eq_true, beq_iff_eq, not_and]
          intro h
          exact absurd h hs
        · rw [if_neg]
          simp only [Bool.and_eq_true, beq_iff_eq, not_and]
          intro _ h
          exact hA h
      have hNCeq : hoursNC (st.out ++ [(setSprint y
          (scanSprint st.rem y.assignee y.estimateHours
            (maxDepSprint st.issueSprint y.dependsOn)).1,
          (scanSprint st.rem y.assignee y.estimateHours
            (maxDepSprint st.issueSprint y.dependsOn)).2)]) s a =
          hoursNC st.out s a := by
        rw [hoursNC_app, hcons, Bool.false_and, if_neg Bool.false_ne_true,
          add_zero]
      have hCeq : hoursCeil (st.out ++ [(setSprint y
          (scanSprint st.rem y.assignee y.estimateHours
            (maxDepSprint st.issueSprint y.dependsOn)).1,
          (scanSprint st.rem y.assignee y.estimateHours
            (maxDepSprint st.issueSprint y.dependsOn)).2)]) s a =
          hoursCeil st.out s a := by
        rw [hoursCeil_app, hcons, Bool.false_and, if_neg Bool.false_ne_true,
          add_zero]
      refine ⟨?_, ?_, ?_⟩
      · rw [hNCeq]
        exact h1
      · rw [hCeq]
        exact h2
      · dsimp only
        rw [hNCeq, hCeq, hrem]
        exact h3

/-- The placement fold preserves the capacity invariant. -/
theorem place_foldl_capInv (tc : String → Option Rat) :
    ∀ (l : List Issue) (st : PlaceState), (∀ i ∈ l, 0 ≤ i.estimateHours) →
      CapInv tc st → CapInv tc (l.foldl placeStep st) := by
  intro l
  induction l with
  | nil => intro st _ h; exact h
  | cons y l ih =>
      intro st hl hst
      exact ih _ (fun i hi => hl i (List.mem_cons_of_mem _ hi))
        (placeStep_capInv tc st y (hl y (List.mem_cons_self _ _)) hst)

/-- The initial placement state satisfies the capacity invariant when all
capacities are nonnegative. -/
theorem capInv_init (tc : String → Option Rat) (hcap : ∀ a, 0 ≤ capOf tc a) :
    CapInv tc (initPlace tc) := by
  intro s a _
  refine ⟨by simpa [hoursNC, initPlace] using hcap a,
    by simp [hoursCeil, initPlace], ?_⟩
  simp [hoursNC, hoursCeil, initPlace, initRem]

/-- The capacity sum of the claim counts zero-estimate entries as zero,
so it equals the consuming non-ceiling sum. -/
theorem sprintAssigneeHours_eq_hoursNC (out : List (Issue × Bool)) (s : Nat)
    (a : String) : sprintAssigneeHours out s a = hoursNC out s a := by
  induction out with
  | nil => rfl
  | cons p l ih =>
      rw [sprintAssigneeHours, hoursNC, List.filter_cons, List.filter_cons]
      rw [sprintAssigneeHours, hoursNC] at ih
      by_cases h1 : (p.1.sprint == s && p.1.assignee == a && !p.2) = true
      · by_cases h0 : (p.1.estimateHours == 0) = true
        · have hc : (consumingAt s a p && !p.2) = false := by
            simp only [consumingAt, h0, Bool.not_true, Bool.and_false,
              Bool.false_and]
          rw [if_pos h1, if_neg (by simp [hc])]
          simp only [List.map_cons, List.sum_cons]
          have h00 : p.1.estimateHours = 0 := by simpa using h0
          rw [h00, zero_add]
          exact ih
        · have hc : (consumingAt s a p && !p.2) = true := by
            have h12 := Bool.and_eq_true_iff.mp h1
            have hs := Bool.and_eq_true_iff.mp h12.1
            simp only [consumingAt, hs.1, hs.2, h0, Bool.not_false, Bool.and_true,
              Bool.true_and, h12.2]
          rw [if_pos h1, if_pos hc]
          simp only [List.map_cons, List.sum_cons, ih]
      · have hc : (consumingAt s a p && !p.2) = false := by
          have h1f : (p.1.sprint == s && p.1.assignee == a && !p.2) = false :=
            Bool.not_eq_true _ ▸ h1
          rcases Bool.and_eq_false_iff.mp h1f with h12 | h3
          · rcases Bool.and_eq_false_iff.mp h12 with hs | haq
            · simp [consumingAt, hs]
            · simp [consumingAt, haq]
          · simp [consumingAt, h3]
        rw [if_neg h1, if_neg (by simp [hc])]
        exact ih

/-- Claim C2: after `replan`, for every sprint and every named assignee,
the sum of estimate hours of scheduled issues with that sprint and
assignee is at most the assignee's capacity (table entry, or the default
80), excepting placements that bailed at the scan ceiling; issues with
an empty assignee or zero estimate consume no capacity (they contribute
zero to the sum and never touch the remaining-hours table).  Estimates
and capacities are nonnegative per the data model. -/
theorem replan_capacity_invariant (issues : List Issue) (tc : String → Option Rat)
    (hhrs : ∀ i ∈ issues, 0 ≤ i.estimateHours)
    (hcap : ∀ a, 0 ≤ capOf tc a) :
    ∀ s a, a ≠ "" → sprintAssigneeHours (replanAux issues tc) s a ≤ capOf tc a := by
  intro s a ha
  have hinv := place_foldl_capInv tc (topoSort issues) (initPlace tc)
    (fun i hi => hhrs i (topoSort_mem issues i hi)) (capInv_init tc hcap)
  rw [replanAux, sprintAssigneeHours_eq_hoursNC]
  exact (hinv s a ha).1

/-- Witness for C2 at the concrete two-issue Alice scenario. -/
theorem replan_capacity_invariant_witness :
    sprintAssigneeHours
      (replanAux [mkIssue 1 "SB-1" "high" "Alice" 40 [],
        mkIssue 2 "SB-2" "medium" "Alice" 50 [1]]
        (fun m => if m == "Alice" then some 80 else none)) 1 "Alice" ≤
      capOf (fun m => if m == "Alice" then some 80 else none) "Alice" := by
  refine replan_capacity_invariant _ _ (by decide) (fun a => ?_) 1 "Alice" (by decide)
  by_cases h : (a == "Alice") = true <;> simp [capOf, h]


/-- Claim C10: for every input the state container returned by the load
path has an empty `teamCapacity` table, so at scheduling time every
member resolves to the default capacity of 80, and the remaining-hours
table starts at 80 everywhere. -/
theorem loadState_empty_capacity (input : Option String) :
    (∀ m, (loadState input).teamCapacity m = none) ∧
    (∀ m, capOf (loadState input).teamCapacity m = 80) ∧
    (∀ s m, initRem (loadState input).teamCapacity s m = 80) := by
  cases input <;> exact ⟨fun _ => rfl, fun _ => rfl, fun _ _ => rfl⟩

/-- Claim C9: in the concrete scenario A (high, no deps, 40 h, Alice),
B (medium, depends on A, 50 h, Alice), C (low, unassigned, no estimate),
with capacity Alice = 80, the engine puts A in sprint 1 and rolls B to
sprint 2 because only 40 of Alice's 80 hours remain in sprint 1. -/
theorem replan_scenario_three_issues :
    (replan
      [mkIssue 1 "SB-1" "high" "Alice" 40 [],
       mkIssue 2 "SB-2" "medium" "Alice" 50 [1],
       mkIssue 3 "SB-3" "low" "" 0 []]
      (fun m => if m == "Alice" then some 80 else none)).map
        (fun i => (i.key, i.sprint)) = [("SB-1", 1), ("SB-2", 2), ("SB-3", 1)] := by
  decide

/-- Counterexample to claim C6 as stated: an issue whose `dependsOn`
contains its own id is not "treated as having no dependency" — it is
omitted from the scheduled output entirely, unlike the same issue with
the self-reference removed, which is scheduled into sprint 1. -/
theorem selfloop_dropped_cex :
    replan [mkIssue 1 "SB-1" "high" "Alice" 40 [1]] (fun _ => none) = [] ∧
    (replan [mkIssue 1 "SB-1" "high" "Alice" 40 []] (fun _ => none)).map
      (fun i => (i.id, i.sprint)) = [(1, 1)] := by
  decide

/-- Counterexample to claim C7 as stated: an issue whose estimate exceeds
every sprint's capacity is assigned sprint 101, one past the scan
ceiling of 100, not the ceiling sprint itself. -/
theorem ceiling_overflow_cex :
    (replan [mkIssue 1 "SB-1" "high" "Alice" 200 []] (fun _ => none)).map
      (fun i => i.sprint) = [101] ∧ (101 : Nat) ≠ 100 := by
  decide

/-- Counterexample to claim C3 as stated: a retained row whose Status
cell reads "closed" is written back as the canonical label "Done", so
`saveState(loadState())` does not preserve every original column value. -/
theorem save_load_status_cex :
    saveRows ["Issue id", "Status"] [["1", "closed"]]
      (loadRows ["Issue id", "Status"] [["1", "closed"]]) = [["1", "Done"]] ∧
    [["1", "Done"]] ≠ [["1", "closed"]] := by
  decide

/-- Counterexample to claim C4 as stated: the dependency token "999"
matches no issue key and no existing issue id, yet it is retained as the
dangling id 999 because it parses as a number. -/
theorem dangling_dep_cex :
    ((loadRows ["Issue id", "Issue key", "Inward issue link (Depends)"]
        [["1", "SB-1", "999"]]).issues.map (fun i => (i.id, i.dependsOn))) =
      [(1, [999])] ∧
    ¬ ∃ i ∈ (loadRows ["Issue id", "Issue key", "Inward issue link (Depends)"]
        [["1", "SB-1", "999"]]).issues, i.id = 999 := by
  decide

/-- Counterexample to claim C5 as stated: a row shorter than the header
list is padded on serialization, so the parse of the serialization is
not the original row set. -/
theorem ragged_roundtrip_cex :
    (parseCSV (serializeCSV ["A", "B"] [["x"]])).dataRows = [["x", ""]] ∧
    [["x", ""]] ≠ [["x"]] := by
  decide

/-! Bookkeeping lemmas for the in-degree decrement pass. -/

/-- The decrement pass lowers each key by its multiplicity in the
processed dependents list. -/
theorem decFreed_fst (ds : List Int) : ∀ (deg : Int → Int) (k : Int),
    (decFreed ds deg).1 k = deg k - (ds.count k : Int) := by
  induction ds with
  | nil => intro deg k; simp [decFreed]
  | cons d rest ih =>
      intro deg k
      rw [decFreed]
      dsimp only
      rw [ih, Function.update_apply]
      by_cases hk : k = d
      · subst hk
        rw [if_pos rfl, List.count_cons_self]
        push_cast
        ring
      · rw [if_neg hk, List.count_cons_of_ne hk]

/-- A key is freed exactly when its in-degree was positive and the
processed list decrements it down to zero or below. -/
theorem decFreed_mem (ds : List Int) : ∀ (deg : Int → Int) (k : Int),
    k ∈ (decFreed ds deg).2 ↔ (0 < deg k ∧ deg k ≤ (ds.count k : Int)) := by
  induction ds with
  | nil => intro deg k; simp [decFreed]
  | cons d rest ih =>
      intro deg k
      rw [decFreed]
      dsimp only
      by_cases hk : k = d
      · subst hk
        rw [List.count_cons_self]
        by_cases h1 : deg k = 1
        · rw [if_pos (by rw [Function.update_same]; simp [h1])]
          constructor
          · intro _
            push_cast
            omega
          · intro _
            exact List.mem_cons_self _ _
        · rw [if_neg (by rw [Function.update_same]; simp only [beq_iff_eq]; omega),
            ih, Function.update_same]
          push_cast
          omega
      · rw [List.count_cons_of_ne hk]
        have hupd : Function.update deg d (deg d - 1) k = deg k :=
          Function.update_noteq hk _ _
        by_cases h1 : (Function.update deg d (deg d - 1) d == 0) = true
        · rw [if_pos h1, List.mem_cons, ih, hupd]
          constructor
          · rintro (h | h)
            · exact absurd h hk
            · exact h
          · intro h
            right
            exact h
        · rw [if_neg h1, ih, hupd]

/-- The freed list has no duplicate ids. -/
theorem decFreed_nodup (ds : List Int) : ∀ (deg : Int → Int),
    (decFreed ds deg).2.Nodup := by
  induction ds with
  | nil => intro deg; simp [decFreed]
  | cons d rest ih =>
      intro deg
      rw [decFreed]
      dsimp only
      by_cases hzero : (Function.update deg d (deg d - 1) d == 0) = true
      · rw [if_pos hzero]
        refine List.Nodup.cons ?_ (ih _)
        intro hmem
        have hiff := (decFreed_mem rest (Function.update deg d (deg d - 1)) d).mp hmem
        rw [Function.update_same] at hiff
        have hz : deg d - 1 = 0 := by
          have h2 := eq_of_beq hzero
          rwa [Function.update_same] at h2
        omega
      · rw [if_neg hzero]
        exact ih _

/-- Counting over the flattened dependents. -/
theorem count_flatMap (f : Issue → List Int) (a : Int) :
    ∀ l : List Issue,
      ((l.flatMap f).count a) = (l.map (fun i => (f i).count a)).sum := by
  intro l
  induction l with
  | nil => rfl
  | cons x rest ih => simp [List.flatMap_cons, List.count_append, ih]

/-- Under unique ids, the only issue matching an id filter is the issue
itself. -/
theorem filter_id_eq (issues : List Issue)
    (hids : (issues.map Issue.id).Nodup) (y : Issue) (hy : y ∈ issues) :
    issues.filter (fun i => i.id == y.id) = [y] := by
  induction issues with
  | nil => cases hy
  | cons z rest ih =>
      rw [List.map_cons, List.nodup_cons] at hids
      rcases List.mem_cons.mp hy with rfl | hyr
      · rw [List.filter_cons, if_pos (by simp)]
        have hrest : rest.filter (fun i => i.id == y.id) = [] := by
          rw [List.filter_eq_nil_iff]
          intro b hb
          simp only [beq_iff_eq]
          intro hbid
          exact hids.1 (hbid ▸ List.mem_map_of_mem Issue.id hb)
        rw [hrest]
      · have hzid : ¬ z.id = y.id := by
          intro h
          exact hids.1 (h ▸ List.mem_map_of_mem Issue.id hyr)
        rw [List.filter_cons, if_neg (by simpa using hzid)]
        exact ih hids.2 hyr

/-- Under unique ids, equal ids mean equal issues. -/
theorem id_inj (issues : List Issue) (hids : (issues.map Issue.id).Nodup)
    (a b : Issue) (ha : a ∈ issues) (hb : b ∈ issues) (h : a.id = b.id) :
    a = b := by
  have hfa : a ∈ issues.filter (fun i => i.id == b.id) :=
    List.mem_filter.mpr ⟨ha, by simpa using h⟩
  rw [filter_id_eq issues hids b hb] at hfa
  exact List.mem_singleton.mp hfa

/-- Under unique ids, `byId` returns the issue itself. -/
theorem byId_eq (issues : List Issue) (hids : (issues.map Issue.id).Nodup)
    (y : Issue) (hy : y ∈ issues) : byId issues y.id = some y := by
  rw [byId, filter_id_eq issues hids y hy]
  rfl

/-- Multiplicity of an issue id in a dependents list: it is the number of
occurrences of the output issue among that issue's in-set dependencies. -/
theorem count_dependentsOf (issues : List Issue)
    (hids : (issues.map Issue.id).Nodup) (x : Issue) (hx : x ∈ issues)
    (y : Issue) (hy : y ∈ issues) :
    (dependentsOf issues x.id).count y.id = (presentDeps issues y).count x.id := by
  rw [dependentsOf, count_flatMap]
  have hterm : ∀ i : Issue,
      ((i.dependsOn.filter (fun dep => dep == x.id && present issues dep)).map
        (fun _ => i.id)).count y.id =
      if i.id = y.id then (presentDeps issues i).count x.id else 0 := by
    intro i
    rw [List.map_const', List.count_replicate]
    have hlen : (i.dependsOn.filter
        (fun dep => dep == x.id && present issues dep)).length =
        (presentDeps issues i).count x.id := by
      have hpx : present issues x.id = true := by
        rw [present, List.any_eq_true]
        exact ⟨x, hx, by simp⟩
      have hfeq : i.dependsOn.filter (fun dep => dep == x.id && present issues dep)
          = (presentDeps issues i).filter (fun dep => dep == x.id) := by
        rw [presentDeps, List.filter_filter]
      rw [hfeq, List.count]
      exact (List.countP_eq_length_filter _ _).symm
    rw [hlen]
    by_cases hiy : i.id = y.id
    · rw [if_pos (by simpa using hiy), if_pos hiy]
    · rw [if_neg (by simpa using hiy), if_neg hiy]
  have hsum : ∀ (l : List Issue), (∀ i ∈ l, i ∈ issues) →
      ((l.map (fun i =>
        ((i.dependsOn.filter (fun dep => dep == x.id && present issues dep)).map
          (fun _ => i.id)).count y.id)).sum : Nat) =
      ((l.filter (fun i => i.id == y.id)).map
        (fun i => (presentDeps issues i).count x.id)).sum := by
    intro l
    induction l with
    | nil => intro _; rfl
    | cons z rest ih =>
        intro hsub
        rw [List.map_cons, List.sum_cons, hterm z, List.filter_cons]
        by_cases hzy : z.id = y.id
        · rw [if_pos hzy, if_pos (by simpa using hzy), List.map_cons, List.sum_cons,
            ih (fun i hi => hsub i (List.mem_cons_of_mem z hi))]
        · rw [if_neg hzy, if_neg (by simpa using hzy), zero_add,
            ih (fun i hi => hsub i (List.mem_cons_of_mem z hi))]
  rw [hsum issues (fun i hi => hi), filter_id_eq issues hids y hy]
  simp

/-! Counting scheduled predecessors. -/

/-- Disjoint-predicate split of `countP` over a disjunction. -/
theorem countP_or_split (l : List Int) (p q : Int → Bool)
    (hdisj : ∀ d ∈ l, ¬(p d = true ∧ q d = true)) :
    l.countP (fun d => p d || q d) = l.countP p + l.countP q := by
  induction l with
  | nil => rfl
  | cons d rest ih =>
      rw [List.countP_cons, List.countP_cons, List.countP_cons,
        ih (fun e he => hdisj e (List.mem_cons_of_mem _ he))]
      by_cases hp : p d = true
      · have hq : q d = false := by
          rw [← Bool.not_eq_true]
          exact fun hq => hdisj d (List.mem_cons_self _ _) ⟨hp, hq⟩
        rw [if_pos (by simp [hp]), if_pos hp, if_neg (by simp [hq])]
        omega
      · rw [Bool.not_eq_true] at hp
        by_cases hq : q d = true
        · rw [if_pos (by simp [hq]), if_neg (by simp [hp]), if_pos hq]
          omega
        · rw [Bool.not_eq_true] at hq
          rw [if_neg (by simp [hp, hq]), if_neg (by simp [hp]), if_neg (by simp [hq])]
          omega

/-- Appending one output issue raises the predecessor count by the
multiplicity of its id among the dependencies. -/
theorem outCount_append (issues : List Issue) (R : List Issue) (x y : Issue)
    (hx : x.id ∉ R.map Issue.id) :
    outCount issues (R ++ [x]) y =
      outCount issues R y + (presentDeps issues y).count x.id := by
  rw [outCount, outCount]
  have hbc : ∀ a b : Int, (a == b) = (b == a) := by
    intro a b
    by_cases h : a = b
    · rw [h]
    · rw [beq_eq_false_iff_ne.mpr h, beq_eq_false_iff_ne.mpr (Ne.symm h)]
  have hpred : (fun d => (R ++ [x]).any (fun j => j.id == d)) =
      (fun d => R.any (fun j => j.id == d) || (d == x.id)) := by
    funext d
    rw [List.any_append, List.any_cons, List.any_nil, Bool.or_false, hbc x.id d]
  rw [hpred, countP_or_split]
  · rfl
  · intro d _ hpq
    rcases hpq with ⟨hp, hq⟩
    rw [List.any_eq_true] at hp
    obtain ⟨j, hj, hjd⟩ := hp
    have hjd2 : j.id = d := by simpa using hjd
    have hxd : d = x.id := by simpa using hq
    exact hx (by rw [← hxd, ← hjd2]; exact List.mem_map_of_mem Issue.id hj)

/-- The predecessor count never exceeds the initial in-degree. -/
theorem outCount_le (issues : List Issue) (R : List Issue) (y : Issue) :
    outCount issues R y ≤ degInit issues y := by
  rw [outCount, degInit]
  exact List.countP_le_length _

/-- A full predecessor count means every in-set dependency is covered. -/
theorem outCount_eq_full (issues : List Issue) (R : List Issue) (y : Issue)
    (h : outCount issues R y = degInit issues y) :
    ∀ d ∈ presentDeps issues y, ∃ j ∈ R, j.id = d := by
  intro d hd
  have hall := (List.countP_eq_length.mp h) d hd
  rw [List.any_eq_true] at hall
  obtain ⟨j, hj, hjd⟩ := hall
  exact ⟨j, hj, by simpa using hjd⟩

/-- Coverage of all in-set dependencies makes the count full. -/
theorem outCount_full_of_covered (issues : List Issue) (R : List Issue) (y : Issue)
    (h : ∀ d ∈ presentDeps issues y, ∃ j ∈ R, j.id = d) :
    outCount issues R y = degInit issues y := by
  rw [outCount, degInit, List.countP_eq_length]
  intro d hd
  obtain ⟨j, hj, hjid⟩ := h d hd
  rw [List.any_eq_true]
  exact ⟨j, hj, by simpa using hjid⟩

/-- Every member of a prefix-closed output has its in-set dependencies
covered by the output. -/
theorem orderClosed_mem_covered (issues : List Issue) (R : List Issue)
    (hc : OrderClosed issues R) (y : Issue) (hy : y ∈ R) :
    ∀ d ∈ presentDeps issues y, ∃ j ∈ R, j.id = d := by
  obtain ⟨A, B, rfl⟩ := List.append_of_mem hy
  intro d hd
  obtain ⟨j, hj, hjd⟩ := hc A y B rfl d hd
  exact ⟨j, List.mem_append.mpr (Or.inl hj), hjd⟩

/-- Injectivity of snoc. -/
theorem snoc_inj {l1 l2 : List Issue} {a b : Issue}
    (h : l1 ++ [a] = l2 ++ [b]) : l1 = l2 ∧ a = b := by
  have h2 := congrArg List.reverse h
  rw [List.reverse_append, List.reverse_append] at h2
  simp only [List.reverse_cons, List.reverse_nil, List.nil_append,
    List.singleton_append] at h2
  obtain ⟨rfl, h5⟩ := List.cons.inj h2
  exact ⟨List.reverse_injective h5, rfl⟩

/-- Prefix closure extends to a snoc whose dependencies are covered. -/
theorem orderClosed_snoc (issues : List Issue) (R : List Issue) (x : Issue)
    (hc : OrderClosed issues R)
    (hx : ∀ d ∈ presentDeps issues x, ∃ j ∈ R, j.id = d) :
    OrderClosed issues (R ++ [x]) := by
  intro A y B hEq d hd
  rcases List.eq_nil_or_concat B with rfl | ⟨B2, b, rfl⟩
  · obtain ⟨rfl, rfl⟩ := snoc_inj hEq
    exact hx d hd
  · rw [List.concat_eq_append] at hEq
    have hEq2 : R ++ [x] = (A ++ y :: B2) ++ [b] := by
      rw [hEq]
      simp
    obtain ⟨hR, rfl⟩ := snoc_inj hEq2
    exact hc A y B2 hR d hd

/-- Ids of freed issues resolved through `byId` are the freed ids. -/
theorem filterMap_byId_ids (issues : List Issue) :
    ∀ (L : List Int), (∀ d ∈ L, ∃ z, byId issues d = some z) →
      (L.filterMap (byId issues)).map Issue.id = L := by
  intro L
  induction L with
  | nil => intro _; rfl
  | cons d rest ih =>
      intro hall
      obtain ⟨z, hz⟩ := hall d (List.mem_cons_self _ _)
      simp only [List.filterMap_cons, hz, List.map_cons]
      rw [(byId_mem issues d z hz).2, ih (fun e he => hall e (List.mem_cons_of_mem _ he))]

/-- One iteration of the topological loop preserves the invariant. -/
theorem topoInv_step (issues : List Issue) (hids : (issues.map Issue.id).Nodup)
    (x : Issue) (queue : List Issue) (deg : Int → Int) (R : List Issue)
    (hinv : TopoInv issues (x :: queue) deg R) :
    TopoInv issues
      ((sortQ ((decFreed (dependentsOf issues x.id) deg).2.filterMap (byId issues))).foldl
        (fun q f => insertQueue f q) queue)
      (decFreed (dependentsOf issues x.id) deg).1
      (R ++ [x]) := by
  obtain ⟨rsub, qsub, nodup, degEq, qdeps, closed⟩ := hinv
  have hx : x ∈ issues := qsub x (List.mem_cons_self x queue)
  have hnodup3 : (R.map Issue.id).Nodup ∧ ((x :: queue).map Issue.id).Nodup ∧
      List.Disjoint (R.map Issue.id) ((x :: queue).map Issue.id) := by
    rw [List.map_append] at nodup
    exact List.nodup_append.mp nodup
  have hxq : x.id ∉ queue.map Issue.id := by
    have := hnodup3.2.1
    rw [List.map_cons, List.nodup_cons] at this
    exact this.1
  have hxR : x.id ∉ R.map Issue.id := by
    intro hmem
    exact hnodup3.2.2 hmem (List.mem_map_of_mem Issue.id (List.mem_cons_self x queue))
  have degEq2 : ∀ y ∈ issues,
      (decFreed (dependentsOf issues x.id) deg).1 y.id =
        (degInit issues y : Int) - (outCount issues (R ++ [x]) y : Int) := by
    intro y hy
    rw [decFreed_fst, degEq y hy, count_dependentsOf issues hids x hx y hy,
      outCount_append issues R x y hxR]
    push_cast
    ring
  have hfreed_iff : ∀ y ∈ issues, (y.id ∈ (decFreed (dependentsOf issues x.id) deg).2 ↔
      outCount issues R y < degInit issues y ∧
        outCount issues (R ++ [x]) y = degInit issues y) := by
    intro y hy
    rw [decFreed_mem, degEq y hy, count_dependentsOf issues hids x hx y hy]
    have hle := outCount_le issues (R ++ [x]) y
    rw [outCount_append issues R x y hxR] at hle ⊢
    omega
  have hnotin : ∀ y ∈ issues, y.id ∈ (decFreed (dependentsOf issues x.id) deg).2 →
      y ∉ R ∧ y ∉ x :: queue := by
    intro y hy hmem
    obtain ⟨hlt, _⟩ := (hfreed_iff y hy).mp hmem
    constructor
    · intro hyR
      have := outCount_full_of_covered issues R y
        (orderClosed_mem_covered issues R closed y hyR)
      omega
    · intro hyQ
      have := outCount_full_of_covered issues R y (qdeps y hyQ)
      omega
  have hbyId_some : ∀ d ∈ (decFreed (dependentsOf issues x.id) deg).2,
      ∃ z, byId issues d = some z := by
    intro d hd
    have hmm := (decFreed_mem (dependentsOf issues x.id) deg d).mp hd
    have hcount : 0 < (dependentsOf issues x.id).count d := by
      have h2 : (0 : Int) < ((dependentsOf issues x.id).count d : Int) :=
        lt_of_lt_of_le hmm.1 hmm.2
      exact_mod_cast h2
    have hds : d ∈ dependentsOf issues x.id := List.count_pos_iff.mp hcount
    obtain ⟨i, hi, hmem2⟩ := List.mem_flatMap.mp hds
    obtain ⟨_, _, hdi⟩ := List.mem_map.mp hmem2
    have hfil : i ∈ issues.filter (fun j => j.id == d) :=
      List.mem_filter.mpr ⟨hi, by simp [hdi]⟩
    have hne : issues.filter (fun j => j.id == d) ≠ [] :=
      List.ne_nil_of_mem hfil
    rcases hlast : (issues.filter (fun j => j.id == d)).getLast? with _ | z
    · exact absurd (List.getLast?_eq_none_iff.mp hlast) hne
    · exact ⟨z, hlast⟩
  have hfreedSub : ∀ z ∈ (decFreed (dependentsOf issues x.id) deg).2.filterMap
      (byId issues), z ∈ issues ∧ z.id ∈ (decFreed (dependentsOf issues x.id) deg).2 := by
    intro z hz
    obtain ⟨d, hd, hzd⟩ := List.mem_filterMap.mp hz
    obtain ⟨hzi, hzid⟩ := byId_mem issues d z hzd
    exact ⟨hzi, hzid ▸ hd⟩
  have hQ2perm : List.Perm
      ((sortQ ((decFreed (dependentsOf issues x.id) deg).2.filterMap (byId issues))).foldl
        (fun q f => insertQueue f q) queue)
      (((decFreed (dependentsOf issues x.id) deg).2.filterMap (byId issues)) ++ queue) :=
    (foldl_insertQueue_perm _ _).trans
      (List.Perm.append_right queue (sortQ_perm _))
  refine ⟨?_, ?_, ?_, degEq2, ?_, ?_⟩
  · intro j hj
    rcases List.mem_append.mp hj with hL | hRx
    · exact rsub j hL
    · rw [List.mem_singleton.mp hRx]
      exact hx
  · intro j hj
    rcases List.mem_append.mp (hQ2perm.mem_iff.mp hj) with hL | hRq
    · exact (hfreedSub j hL).1
    · exact qsub j (List.mem_cons_of_mem x hRq)
  · -- nodup of ((R ++ [x]) ++ queue2) ids
    have hperm2 : List.Perm (((R ++ [x]) ++
        ((sortQ ((decFreed (dependentsOf issues x.id) deg).2.filterMap (byId issues))).foldl
          (fun q f => insertQueue f q) queue)).map Issue.id)
        (((R ++ [x]) ++
          (((decFreed (dependentsOf issues x.id) deg).2.filterMap (byId issues)) ++ queue)).map
            Issue.id) :=
      (List.Perm.append_left (R ++ [x]) hQ2perm).map Issue.id
    rw [hperm2.nodup_iff]
    rw [List.map_append, List.map_append, List.map_append, List.map_singleton,
      List.nodup_append]
    have hfids : (((decFreed (dependentsOf issues x.id) deg).2.filterMap
        (byId issues)).map Issue.id) = (decFreed (dependentsOf issues x.id) deg).2 :=
      filterMap_byId_ids issues _ hbyId_some
    refine ⟨?_, ?_, ?_⟩
    · rw [List.nodup_append]
      refine ⟨hnodup3.1, List.nodup_singleton _, ?_⟩
      intro a haR
      rw [List.mem_singleton]
      intro haX
      exact hxR (haX ▸ haR)
    · rw [List.nodup_append, hfids]
      refine ⟨decFreed_nodup _ _, ?_, ?_⟩
      · have := hnodup3.2.1
        rw [List.map_cons, List.nodup_cons] at this
        exact this.2
      · intro d hdF hdQ
        obtain ⟨z, hzQ, hzid⟩ := List.mem_map.mp hdQ
        have hz2 : z ∈ issues := qsub z (List.mem_cons_of_mem x hzQ)
        exact (hnotin z hz2 (hzid ▸ hdF)).2 (List.mem_cons_of_mem x hzQ)
    · intro a haL haRt
      rcases List.mem_append.mp haL with haR | haX
      · rcases List.mem_append.mp haRt with haF | haQ
        · rw [hfids] at haF
          obtain ⟨z, hzR, hzid⟩ := List.mem_map.mp haR
          exact (hnotin z (rsub z hzR) (hzid ▸ haF)).1 hzR
        · refine hnodup3.2.2 haR ?_
          obtain ⟨z, hzQ, hzid⟩ := List.mem_map.mp haQ
          exact List.mem_map.mpr ⟨z, List.mem_cons_of_mem x hzQ, hzid⟩
      · have hax := List.mem_singleton.mp haX
        subst hax
        rcases List.mem_append.mp haRt with haF | haQ
        · rw [hfids] at haF
          exact (hnotin x hx haF).2 (List.mem_cons_self x queue)
        · exact hxq haQ
  · -- queue dependencies covered
    intro y hy d hd
    rcases List.mem_append.mp (hQ2perm.mem_iff.mp hy) with hL | hRq
    · obtain ⟨hyi, hyfreed⟩ := hfreedSub y hL
      have hfull := ((hfreed_iff y hyi).mp hyfreed).2
      exact outCount_eq_full issues (R ++ [x]) y hfull d hd
    · obtain ⟨j, hj, hjd⟩ := qdeps y (List.mem_cons_of_mem x hRq) d hd
      exact ⟨j, List.mem_append.mpr (Or.inl hj), hjd⟩
  · exact orderClosed_snoc issues R x closed (qdeps x (List.mem_cons_self x queue))

/-- Properties of the finished output extracted from the invariant. -/
theorem topoInv_base (issues : List Issue) (queue : List Issue) (deg : Int → Int)
    (R : List Issue) (hinv : TopoInv issues queue deg R) :
    OrderClosed issues R ∧ ((R.map Issue.id).Nodup) ∧ ∀ j ∈ R, j ∈ issues := by
  refine ⟨hinv.closed, ?_, hinv.rsub⟩
  have h2 := hinv.nodup
  rw [List.map_append] at h2
  exact (List.nodup_append.mp h2).1

/-- Any run of the topological loop from an invariant state yields a
prefix-closed output of distinct in-set issues. -/
theorem topoLoop_out (issues : List Issue) (hids : (issues.map Issue.id).Nodup) :
    ∀ fuel queue deg R, TopoInv issues queue deg R →
      OrderClosed issues (topoLoop issues fuel queue deg R) ∧
      ((topoLoop issues fuel queue deg R).map Issue.id).Nodup ∧
      (∀ j ∈ topoLoop issues fuel queue deg R, j ∈ issues) := by
  intro fuel
  induction fuel with
  | zero =>
      intro queue deg R hinv
      cases queue with
      | nil => simpa [topoLoop] using topoInv_base issues [] deg R hinv
      | cons x qs => simpa [topoLoop] using topoInv_base issues (x :: qs) deg R hinv
  | succ n ih =>
      intro queue deg R hinv
      cases queue with
      | nil => simpa [topoLoop] using topoInv_base issues [] deg R hinv
      | cons x qs =>
          rw [topoLoop]
          exact ih _ _ _ (topoInv_step issues hids x qs deg R hinv)

/-- Pointwise value of the in-degree bump loop. -/
theorem bump_fold (k : Int) : ∀ (l : List Int) (f : Int → Int) (j : Int),
    (l.foldl (fun g _ => Function.update g k (g k + 1)) f) j =
      if j = k then f j + (l.length : Int) else f j := by
  intro l
  induction l with
  | nil =>
      intro f j
      by_cases h : j = k <;> simp [h]
  | cons c rest ih =>
      intro f j
      rw [List.foldl_cons, ih]
      by_cases h : j = k
      · subst h
        rw [if_pos rfl, if_pos rfl, Function.update_same, List.length_cons]
        push_cast
        ring
      · rw [if_neg h, if_neg h, Function.update_noteq h]

/-- Pointwise value of the in-degree build pass. -/
theorem deg0_fold (issues : List Issue) (j : Int) :
    ∀ (l : List Issue) (f : Int → Int),
    (l.foldl (fun g i => (presentDeps issues i).foldl
        (fun g2 _ => Function.update g2 i.id (g2 i.id + 1)) g) f) j =
      f j + (((l.filter (fun i => i.id == j)).map
        (fun i => (degInit issues i : Int))).sum) := by
  intro l
  induction l with
  | nil => intro f; simp
  | cons z rest ih =>
      intro f
      rw [List.foldl_cons, ih, bump_fold z.id (presentDeps issues z) f j,
        List.filter_cons]
      by_cases h : z.id = j
      · rw [if_pos h.symm, if_pos (by simpa using h), List.map_cons, List.sum_cons,
          degInit]
        ring
      · rw [if_neg (fun h2 => h h2.symm), if_neg (by simpa using h)]

/-- Under unique ids the built in-degree table holds initial in-degrees. -/
theorem deg0_eq (issues : List Issue) (hids : (issues.map Issue.id).Nodup)
    (y : Issue) (hy : y ∈ issues) :
    deg0 issues y.id = (degInit issues y : Int) := by
  rw [deg0, deg0_fold issues y.id issues (fun _ => 0),
    filter_id_eq issues hids y hy]
  simp

/-- The invariant holds at the start of the topological loop. -/
theorem topoInv_init (issues : List Issue) (hids : (issues.map Issue.id).Nodup) :
    TopoInv issues (sortQ (issues.filter (fun i => deg0 issues i.id == 0)))
      (deg0 issues) [] := by
  have hseedsub : ∀ j ∈ sortQ (issues.filter (fun i => deg0 issues i.id == 0)),
      j ∈ issues ∧ (deg0 issues j.id == 0) = true := by
    intro j hj
    have h2 := (sortQ_perm _).mem_iff.mp hj
    exact ⟨(List.mem_filter.mp h2).1, (List.mem_filter.mp h2).2⟩
  refine ⟨fun j hj => absurd hj (List.not_mem_nil j),
    fun j hj => (hseedsub j hj).1, ?_, ?_, ?_, ?_⟩
  · rw [List.nil_append]
    rw [((sortQ_perm _).map Issue.id).nodup_iff]
    exact hids.sublist ((List.filter_sublist _).map Issue.id)
  · intro y hy
    rw [deg0_eq issues hids y hy]
    have h0 : outCount issues [] y = 0 := by simp [outCount]
    rw [h0]
    push_cast
    ring
  · intro y hy d hd
    have h2 := (hseedsub y hy).2
    have h3 : deg0 issues y.id = 0 := eq_of_beq h2
    rw [deg0_eq issues hids y (hseedsub y hy).1] at h3
    have h4 : degInit issues y = 0 := by exact_mod_cast h3
    rw [degInit, List.length_eq_zero] at h4
    rw [h4] at hd
    cases hd
  · intro A y B hEq d hd
    simp at hEq

/-- The output of `topoSort` is prefix-closed and has distinct ids. -/
theorem topoSort_props (issues : List Issue) (hids : (issues.map Issue.id).Nodup) :
    OrderClosed issues (topoSort issues) ∧
      ((topoSort issues).map Issue.id).Nodup := by
  have h := topoLoop_out issues hids (issues.length + degTotal issues)
    (sortQ (issues.filter (fun i => deg0 issues i.id == 0))) (deg0 issues) []
    (topoInv_init issues hids)
  rw [topoSort]
  exact ⟨h.1, h.2.1⟩

/-- Index form of prefix closure: every in-set dependency of the element
at position `k` is the id of an element at an earlier position. -/
theorem orderClosed_get (issues sorted : List Issue)
    (hc : OrderClosed issues sorted) (k : Nat) (hk : k < sorted.length)
    (d : Int) (hd : d ∈ presentDeps issues (sorted.get ⟨k, hk⟩)) :
    ∃ m, m < k ∧ ∃ hm2 : m < sorted.length, (sorted.get ⟨m, hm2⟩).id = d := by
  have hsplit : sorted =
      sorted.take k ++ sorted.get ⟨k, hk⟩ :: sorted.drop (k + 1) := by
    conv_lhs => rw [← List.take_append_drop k sorted]
    rw [List.drop_eq_getElem_cons hk]
    rfl
  obtain ⟨j, hjA, hjd⟩ :=
    hc (sorted.take k) (sorted.get ⟨k, hk⟩) (sorted.drop (k + 1)) hsplit d hd
  obtain ⟨m, hm, hmj⟩ := List.mem_iff_getElem.mp hjA
  have hmk : m < k := by
    have h2 := hm
    rw [List.length_take] at h2
    omega
  have hm2 : m < sorted.length := lt_trans hmk hk
  refine ⟨m, hmk, hm2, ?_⟩
  have hq1 : (sorted.take k)[m]? = some j := by
    rw [List.getElem?_eq_getElem hm]
    exact congrArg some hmj
  have hq2 : sorted[m]? = some j := by
    rw [← List.getElem?_take_of_lt hmk]
    exact hq1
  rw [List.getElem?_eq_getElem hm2] at hq2
  have hjq := Option.some.inj hq2
  rw [List.get_eq_getElem, hjq]
  exact hjd

/-- The dependency-maximum fold never goes below its accumulator. -/
theorem maxDep_fold_ge (issueSprint : Int → Option Nat) :
    ∀ (l : List Int) (acc : Nat),
      acc ≤ l.foldl
        (fun e d =>
          match issueSprint d with
          | some s => if e < s then s else e
          | none => e) acc := by
  intro l
  induction l with
  | nil => intro acc; exact le_rfl
  | cons d0 rest ih =>
      intro acc
      rw [List.foldl_cons]
      refine le_trans ?_ (ih _)
      dsimp only
      cases hd0 : issueSprint d0 with
      | none => exact le_rfl
      | some s =>
          show acc ≤ if acc < s then s else acc
          by_cases hlt : acc < s
          · rw [if_pos hlt]
            omega
          · rw [if_neg hlt]

/-- The dependency-maximum fold dominates every recorded sprint of a
listed dependency. -/
theorem maxDep_fold_mem (issueSprint : Int → Option Nat) :
    ∀ (l : List Int) (acc : Nat) (d : Int) (s : Nat), d ∈ l →
      issueSprint d = some s →
      s ≤ l.foldl
        (fun e d2 =>
          match issueSprint d2 with
          | some s2 => if e < s2 then s2 else e
          | none => e) acc := by
  intro l
  induction l with
  | nil => intro acc d s hd _; exact absurd hd (List.not_mem_nil d)
  | cons d0 rest ih =>
      intro acc d s hd hs
      rw [List.foldl_cons]
      rcases List.mem_cons.mp hd with rfl | hd2
      · refine le_trans ?_ (maxDep_fold_ge issueSprint rest _)
        dsimp only
        rw [hs]
        show s ≤ if acc < s then s else acc
        by_cases hlt : acc < s
        · rw [if_pos hlt]
        · rw [if_neg hlt]
          omega
      · exact ih _ d s hd2 hs

/-- The earliest admissible sprint dominates every dependency's recorded
sprint. -/
theorem maxDepSprint_ge (issueSprint : Int → Option Nat) (deps : List Int)
    (d : Int) (s : Nat) (hd : d ∈ deps) (hs : issueSprint d = some s) :
    s ≤ maxDepSprint issueSprint deps :=
  maxDep_fold_mem issueSprint deps 1 d s hd hs

/-- Uniform shape of one placement step: one entry is appended whose
sprint is at least the earliest admissible one, and the sprint table is
extended at the issue's id. -/
theorem placeStep_shape (st : PlaceState) (y : Issue) :
    ∃ s2 c2, (placeStep st y).out = st.out ++ [(setSprint y s2, c2)] ∧
      (placeStep st y).issueSprint =
        Function.update st.issueSprint y.id (some s2) ∧
      maxDepSprint st.issueSprint y.dependsOn ≤ s2 := by
  by_cases hfree : (y.assignee == "" || y.estimateHours == 0) = true
  · refine ⟨maxDepSprint st.issueSprint y.dependsOn, false, ?_, ?_, le_rfl⟩
    · rw [placeStep_free st y hfree]
    · rw [placeStep_free st y hfree]
  · refine ⟨(scanSprint st.rem y.assignee y.estimateHours
        (maxDepSprint st.issueSprint y.dependsOn)).1,
      (scanSprint st.rem y.assignee y.estimateHours
        (maxDepSprint st.issueSprint y.dependsOn)).2, ?_, ?_,
      scanSprint_ge st.rem y.assignee y.estimateHours _⟩
    · rw [placeStep_cap st y hfree]
    · rw [placeStep_cap st y hfree]

/-- The placement fold appends exactly the ids of the processed issues,
in order. -/
theorem place_fold_ids : ∀ (l : List Issue) (st : PlaceState),
    ((l.foldl placeStep st).out).map (fun p => p.1.id) =
      (st.out.map (fun p => p.1.id)) ++ l.map Issue.id := by
  intro l
  induction l with
  | nil => intro st; simp
  | cons y rest ih =>
      intro st
      rw [List.foldl_cons, ih]
      obtain ⟨s2, c2, hout, _, _⟩ := placeStep_shape st y
      rw [hout]
      simp [setSprint_id]

/-- `replan` schedules exactly the issues of the topological order, so
its id sequence is that of `topoSort`. -/
theorem replan_ids (issues : List Issue) (tc : String → Option Rat) :
    (replan issues tc).map Issue.id = (topoSort issues).map Issue.id := by
  rw [replan, replanAux, List.map_map]
  have h := place_fold_ids (topoSort issues) (initPlace tc)
  simpa [initPlace, Function.comp] using h

/-- Positions with equal ids coincide when the id list has no
duplicates. -/
theorem nodup_ids_get_inj (sorted : List Issue)
    (hnd : (sorted.map Issue.id).Nodup)
    (k m : Nat) (hk : k < sorted.length) (hm : m < sorted.length)
    (h : (sorted.get ⟨k, hk⟩).id = (sorted.get ⟨m, hm⟩).id) : k = m := by
  have hinj := List.nodup_iff_injective_getElem.mp hnd
  have hk2 : k < (sorted.map Issue.id).length := by simpa using hk
  have hm2 : m < (sorted.map Issue.id).length := by simpa using hm
  have hEq : (fun i : Fin (sorted.map Issue.id).length =>
        (sorted.map Issue.id)[i.1]) ⟨k, hk2⟩ =
      (fun i : Fin (sorted.map Issue.id).length =>
        (sorted.map Issue.id)[i.1]) ⟨m, hm2⟩ := by
    simp only [List.getElem_map]
    exact h
  have h3 := hinj hEq
  simpa using h3

/-- Master invariant of the placement fold over a prefix-closed,
duplicate-free order: every pair of scheduled entries respects the
dependency ordering (the dependent is never in an earlier sprint). -/
theorem place_fold_master (issues : List Issue) (sorted : List Issue)
    (hclosed : OrderClosed issues sorted)
    (hnd : (sorted.map Issue.id).Nodup) (hsub : ∀ j ∈ sorted, j ∈ issues) :
    ∀ (rest A : List Issue) (st : PlaceState), sorted = A ++ rest →
      st.out.length = A.length →
      (∀ k (hk : k < st.out.length), ∃ hks : k < sorted.length, ∃ s c,
        st.out.get ⟨k, hk⟩ = (setSprint (sorted.get ⟨k, hks⟩) s, c)) →
      (∀ p ∈ st.out, st.issueSprint p.1.id = some p.1.sprint) →
      (∀ p ∈ st.out, ∀ q ∈ st.out,
        q.1.id ∈ p.1.dependsOn → q.1.sprint ≤ p.1.sprint) →
      ∀ p ∈ (rest.foldl placeStep st).out, ∀ q ∈ (rest.foldl placeStep st).out,
        q.1.id ∈ p.1.dependsOn → q.1.sprint ≤ p.1.sprint := by
  intro rest
  induction rest with
  | nil =>
      intro A st _ _ _ _ hord
      rw [List.foldl_nil]
      exact hord
  | cons y rest2 ih =>
      intro A st hAeq hlen hpt hspr hord
      rw [List.foldl_cons]
      obtain ⟨s2, c2, hout, hisp, hs2⟩ := placeStep_shape st y
      have hAlt : A.length < sorted.length := by
        rw [hAeq, List.length_append, List.length_cons]
        omega
      have hyq : sorted[A.length]? = some y := by
        rw [hAeq, List.getElem?_append_right (le_refl A.length), Nat.sub_self]
        simp
      have hyget : sorted.get ⟨A.length, hAlt⟩ = y := by
        rw [List.get_eq_getElem]
        rw [List.getElem?_eq_getElem hAlt] at hyq
        exact Option.some.inj hyq
      have hIdOf : ∀ p ∈ st.out, ∃ k, k < A.length ∧ ∃ hks : k < sorted.length,
          p.1.id = (sorted.get ⟨k, hks⟩).id ∧
          p.1.dependsOn = (sorted.get ⟨k, hks⟩).dependsOn := by
        intro p hp
        obtain ⟨k, hk, hkp⟩ := List.mem_iff_getElem.mp hp
        obtain ⟨hks, s, c, hentry⟩ := hpt k hk
        have hkp2 : p = (setSprint (sorted.get ⟨k, hks⟩) s, c) := by
          rw [← hkp]
          exact hentry
        refine ⟨k, by rw [← hlen]; exact hk, hks, ?_, ?_⟩
        · rw [hkp2]
          rfl
        · rw [hkp2]
          rfl
      have hNe : ∀ p ∈ st.out, p.1.id ≠ y.id := by
        intro p hp hpy
        obtain ⟨k, hk2, hks, hid, _⟩ := hIdOf p hp
        have hky : (sorted.get ⟨k, hks⟩).id = (sorted.get ⟨A.length, hAlt⟩).id := by
          rw [← hid, hpy, hyget]
        have hkA := nodup_ids_get_inj sorted hnd k A.length hks hAlt hky
        omega
      have hAeq2 : sorted = (A ++ [y]) ++ rest2 := by
        rw [hAeq]
        simp
      have hlen2 : (placeStep st y).out.length = (A ++ [y]).length := by
        rw [hout, List.length_append, List.length_append, hlen]
        rfl
      have hpt2 : ∀ k (hk : k < (placeStep st y).out.length),
          ∃ hks : k < sorted.length, ∃ s c,
            (placeStep st y).out.get ⟨k, hk⟩ =
              (setSprint (sorted.get ⟨k, hks⟩) s, c) := by
        intro k hk
        by_cases hkA : k < st.out.length
        · obtain ⟨hks, s, c, hentry⟩ := hpt k hkA
          refine ⟨hks, s, c, ?_⟩
          have h1 : (placeStep st y).out[k]? = st.out[k]? := by
            rw [hout]
            exact List.getElem?_append_left hkA
          rw [List.getElem?_eq_getElem hk, List.getElem?_eq_getElem hkA] at h1
          have h2 := Option.some.inj h1
          rw [← hentry]
          exact h2
        · have hkub := hk
          rw [hlen2, List.length_append, List.length_cons, List.length_nil] at hkub
          rw [hlen] at hkA
          have hkeq : k = A.length := by omega
          subst hkeq
          refine ⟨hAlt, s2, c2, ?_⟩
          have h1 : (placeStep st y).out[A.length]? = some (setSprint y s2, c2) := by
            rw [hout, ← hlen, List.getElem?_append_right (le_refl st.out.length),
              Nat.sub_self]
            simp
          have hk4 : A.length < (placeStep st y).out.length := hk
          rw [List.getElem?_eq_getElem hk4] at h1
          have h2 := Option.some.inj h1
          rw [hyget]
          exact h2
      have hspr2 : ∀ p ∈ (placeStep st y).out,
          (placeStep st y).issueSprint p.1.id = some p.1.sprint := by
        intro p hp
        rw [hout] at hp
        rcases List.mem_append.mp hp with hpOld | hpNew
        · rw [hisp, Function.update_noteq (hNe p hpOld)]
          exact hspr p hpOld
        · have hpe : p = (setSprint y s2, c2) := List.mem_singleton.mp hpNew
          subst hpe
          rw [hisp]
          exact Function.update_same y.id (some s2) st.issueSprint
      have hord2 : ∀ p ∈ (placeStep st y).out, ∀ q ∈ (placeStep st y).out,
          q.1.id ∈ p.1.dependsOn → q.1.sprint ≤ p.1.sprint := by
        intro p hp q hq hdep
        rw [hout] at hp hq
        rcases List.mem_append.mp hp with hpOld | hpNew
        · rcases List.mem_append.mp hq with hqOld | hqNew
          · exact hord p hpOld q hqOld hdep
          · exfalso
            have hqe : q = (setSprint y s2, c2) := List.mem_singleton.mp hqNew
            subst hqe
            obtain ⟨k, hk2, hks, _, hdeps⟩ := hIdOf p hpOld
            have hyiss : y ∈ issues :=
              hsub y (hyget ▸ List.get_mem sorted A.length hAlt)
            have hpres : present issues y.id = true := by
              rw [present, List.any_eq_true]
              exact ⟨y, hyiss, by simp⟩
            have hdp : y.id ∈ presentDeps issues (sorted.get ⟨k, hks⟩) := by
              rw [presentDeps, List.mem_filter, ← hdeps]
              exact ⟨hdep, hpres⟩
            obtain ⟨m, hmk, hm2, hmid⟩ :=
              orderClosed_get issues sorted hclosed k hks y.id hdp
            have hmA : m = A.length := by
              refine nodup_ids_get_inj sorted hnd m A.length hm2 hAlt ?_
              rw [hmid, hyget]
            omega
        · have hpe : p = (setSprint y s2, c2) := List.mem_singleton.mp hpNew
          subst hpe
          rcases List.mem_append.mp hq with hqOld | hqNew
          · have hq1 := hspr q hqOld
            have hle : q.1.sprint ≤ maxDepSprint st.issueSprint y.dependsOn :=
              maxDepSprint_ge st.issueSprint y.dependsOn q.1.id q.1.sprint hdep hq1
            exact le_trans hle hs2
          · have hqe : q = (setSprint y s2, c2) := List.mem_singleton.mp hqNew
            subst hqe
            exact le_rfl
      exact ih (A ++ [y]) (placeStep st y) hAeq2 hlen2 hpt2 hspr2 hord2
/-- Claim C1: after `schedule` (`replan`) completes, every issue in the
scheduled output has a sprint at least as late as every one of its
dependencies that was also scheduled — the engine never places an issue
in an earlier sprint than a scheduled dependency.  Stated under the
data-model precondition that issue ids are unique. -/
theorem replan_dependency_invariant (issues : List Issue)
    (tc : String → Option Rat) (hids : (issues.map Issue.id).Nodup) :
    ∀ p ∈ replan issues tc, ∀ q ∈ replan issues tc,
      q.id ∈ p.dependsOn → q.sprint ≤ p.sprint := by
  obtain ⟨hclosed, hnd⟩ := topoSort_props issues hids
  have hmaster := place_fold_master issues (topoSort issues) hclosed hnd
    (topoSort_mem issues) (topoSort issues) [] (initPlace tc) rfl rfl
    (fun k hk => absurd hk (by simp [initPlace]))
    (fun p hp => absurd hp (List.not_mem_nil p))
    (fun p hp => absurd hp (List.not_mem_nil p))
  intro p hp q hq hdep
  rw [replan] at hp hq
  obtain ⟨p2, hp2, hp2e⟩ := List.mem_map.mp hp
  obtain ⟨q2, hq2, hq2e⟩ := List.mem_map.mp hq
  subst hp2e
  subst hq2e
  rw [replanAux] at hp2 hq2
  exact hmaster p2 hp2 q2 hq2 hdep

/-- Witness for C1: in the two-issue Alice scenario, the dependent issue
lands in sprint 2, no earlier than its dependency in sprint 1. -/
theorem replan_dependency_invariant_witness :
    (setSprint (mkIssue 1 "SB-1" "high" "Alice" 40 []) 1).sprint ≤
      (setSprint (mkIssue 2 "SB-2" "medium" "Alice" 50 [1]) 2).sprint :=
  replan_dependency_invariant
    [mkIssue 1 "SB-1" "high" "Alice" 40 [],
     mkIssue 2 "SB-2" "medium" "Alice" 50 [1]]
    (fun m => if m == "Alice" then some 80 else none)
    (by decide)
    (setSprint (mkIssue 2 "SB-2" "medium" "Alice" 50 [1]) 2) (by decide)
    (setSprint (mkIssue 1 "SB-1" "high" "Alice" 40 []) 1) (by decide)
    (by decide)

/-- An element accessible under a relation is never related to itself. -/
theorem acc_not_self {r : Int → Int → Prop} (a : Int) (h : Acc r a) :
    ¬ r a a := by
  induction h with
  | intro x _ ih => exact fun hxx => ih x hxx hxx

/-- Every id in the topological output is accessible under the
dependency relation: all its in-set dependencies occur earlier. -/
theorem topoSort_acc (issues : List Issue)
    (hids : (issues.map Issue.id).Nodup) :
    ∀ k, ∀ hk : k < (topoSort issues).length,
      Acc (DepRel issues) ((topoSort issues).get ⟨k, hk⟩).id := by
  intro k
  induction k using Nat.strong_induction_on with
  | _ k ihk =>
      intro hk
      constructor
      intro d hrel
      obtain ⟨i2, hi2, hid2, hdep, hpres⟩ := hrel
      have hget_mem : (topoSort issues).get ⟨k, hk⟩ ∈ issues :=
        topoSort_mem issues _ (List.get_mem _ _ _)
      have hieq : i2 = (topoSort issues).get ⟨k, hk⟩ :=
        id_inj issues hids i2 _ hi2 hget_mem hid2
      have hd : d ∈ presentDeps issues ((topoSort issues).get ⟨k, hk⟩) := by
        rw [presentDeps, List.mem_filter, ← hieq]
        exact ⟨hdep, hpres⟩
      obtain ⟨m, hm, hm2, hmid⟩ := orderClosed_get issues (topoSort issues)
        (topoSort_props issues hids).1 k hk d hd
      rw [← hmid]
      exact ihk m hm hm2

/-- The id of every scheduled issue is accessible under the dependency
relation. -/
theorem sched_id_acc (issues : List Issue)
    (hids : (issues.map Issue.id).Nodup) (tc : String → Option Rat)
    (j : Issue) (hj : j ∈ replan issues tc) : Acc (DepRel issues) j.id := by
  have hmem : j.id ∈ (topoSort issues).map Issue.id := by
    rw [← replan_ids issues tc]
    exact List.mem_map_of_mem Issue.id hj
  obtain ⟨k, hk, hkeq⟩ := List.mem_iff_getElem.mp hmem
  have hk2 : k < (topoSort issues).length := by simpa using hk
  have hkeq2 : ((topoSort issues).get ⟨k, hk2⟩).id = j.id := by
    rw [List.getElem_map] at hkeq
    exact hkeq
  rw [← hkeq2]
  exact topoSort_acc issues hids k hk2

/-- Claim C6 (amended): an issue whose `dependsOn` contains its own id is
not treated as having no dependency — the self-loop keeps its in-degree
positive forever, so the scheduler omits the issue from the output
entirely, exactly as it does for a cycle. -/
theorem selfloop_issue_omitted (issues : List Issue)
    (tc : String → Option Rat) (hids : (issues.map Issue.id).Nodup)
    (i : Issue) (hi : i ∈ issues) (hself : i.id ∈ i.dependsOn) :
    ∀ j ∈ replan issues tc, j.id ≠ i.id := by
  intro j hj hji
  have hpres : present issues i.id = true := by
    rw [present, List.any_eq_true]
    exact ⟨i, hi, by simp⟩
  have hrel : DepRel issues i.id i.id := ⟨i, hi, rfl, hself, hpres⟩
  have hacc : Acc (DepRel issues) i.id := by
    rw [← hji]
    exact sched_id_acc issues hids tc j hj
  exact acc_not_self i.id hacc hrel

/-- Witness for C6: with a self-looping issue 1 and an independent issue
2, the sole scheduled issue is issue 2, whose id differs from 1. -/
theorem selfloop_issue_omitted_witness :
    (setSprint (mkIssue 2 "SB-2" "high" "Alice" 1 []) 1).id ≠
      (mkIssue 1 "SB-1" "high" "Alice" 1 [1]).id :=
  selfloop_issue_omitted
    [mkIssue 1 "SB-1" "high" "Alice" 1 [1], mkIssue 2 "SB-2" "high" "Alice" 1 []]
    (fun _ => none) (by decide)
    (mkIssue 1 "SB-1" "high" "Alice" 1 [1]) (by decide) (by decide)
    (setSprint (mkIssue 2 "SB-2" "high" "Alice" 1 []) 1) (by decide)

/-- Claim C8: an issue whose id lies on a dependency cycle never reaches
zero in-degree and is silently omitted from the scheduled output — no
scheduled issue carries a cyclic id (so in a 2-cycle neither issue
appears); this is defined behavior, not an error. -/
theorem cyclic_issue_omitted (issues : List Issue)
    (tc : String → Option Rat) (hids : (issues.map Issue.id).Nodup)
    (a : Int) (hcyc : Relation.TransGen (DepRel issues) a a) :
    ∀ j ∈ replan issues tc, j.id ≠ a := by
  intro j hj hja
  have hacc : Acc (DepRel issues) a := by
    rw [← hja]
    exact sched_id_acc issues hids tc j hj
  exact acc_not_self a hacc.transGen hcyc

/-- Witness for C8: a 2-cycle between issues 1 and 2 plus a free issue 3;
the only scheduled issue is 3, whose id is not the cyclic id 1. -/
theorem cyclic_issue_omitted_witness :
    (setSprint (mkIssue 3 "SB-3" "high" "" 0 []) 1).id ≠ (1 : Int) :=
  cyclic_issue_omitted
    [mkIssue 1 "SB-1" "high" "Alice" 1 [2],
     mkIssue 2 "SB-2" "high" "Alice" 1 [1],
     mkIssue 3 "SB-3" "high" "" 0 []]
    (fun _ => none) (by decide) 1
    (by
      have h12 : DepRel
          [mkIssue 1 "SB-1" "high" "Alice" 1 [2],
           mkIssue 2 "SB-2" "high" "Alice" 1 [1],
           mkIssue 3 "SB-3" "high" "" 0 []] 1 2 :=
        ⟨mkIssue 2 "SB-2" "high" "Alice" 1 [1], by decide, by decide, by decide,
          by decide⟩
      have h21 : DepRel
          [mkIssue 1 "SB-1" "high" "Alice" 1 [2],
           mkIssue 2 "SB-2" "high" "Alice" 1 [1],
           mkIssue 3 "SB-3" "high" "" 0 []] 2 1 :=
        ⟨mkIssue 1 "SB-1" "high" "Alice" 1 [2], by decide, by decide, by decide,
          by decide⟩
      exact Relation.TransGen.head h12 (Relation.TransGen.single h21))
    (setSprint (mkIssue 3 "SB-3" "high" "" 0 []) 1) (by decide)
/-- Parser step: end of input flushes a pending field or row. -/
theorem parseRows_stop (b : Bool) (field : List Char) (row : List String)
    (rows : List (List String)) :
    parseRows [] b field row rows =
      if field ≠ [] ∨ row ≠ [] then rows ++ [row ++ [String.mk field]]
      else rows := by
  rw [parseRows]

/-- Parser step: opening quote enters the quoted state. -/
theorem parseRows_openq (rest : List Char) (field : List Char)
    (row : List String) (rows : List (List String)) :
    parseRows ('"' :: rest) false field row rows =
      parseRows rest true field row rows := by
  rw [parseRows.eq_def]
  split <;>
    solve
      | simp_all
      | (exfalso
         rename_i heq hflag
         injection heq with h5 h6
         exact absurd h5.symm (by assumption))

/-- Parser step: a comma outside quotes ends the current field. -/
theorem parseRows_comma (rest : List Char) (field : List Char)
    (row : List String) (rows : List (List String)) :
    parseRows (',' :: rest) false field row rows =
      parseRows rest false [] (row ++ [String.mk field]) rows := by
  rw [parseRows.eq_def]
  split <;>
    solve
      | simp_all
      | (exfalso
         rename_i heq hflag
         injection heq with h5 h6
         exact absurd h5.symm (by assumption))

/-- Parser step: a newline outside quotes ends the current row. -/
theorem parseRows_newline (rest : List Char) (field : List Char)
    (row : List String) (rows : List (List String)) :
    parseRows ('\n' :: rest) false field row rows =
      parseRows rest false [] [] (rows ++ [row ++ [String.mk field]]) := by
  rw [parseRows.eq_def]
  split <;>
    solve
      | simp_all
      | (exfalso
         rename_i heq hflag
         injection heq with h5 h6
         exact absurd h5.symm (by assumption))

/-- Parser step: an ordinary character outside quotes is appended to the
current field. -/
theorem parseRows_char (c : Char) (rest : List Char) (field : List Char)
    (row : List String) (rows : List (List String))
    (h1 : c ≠ '"') (h2 : c ≠ ',') (h3 : c ≠ '\n') (h4 : c ≠ '\r') :
    parseRows (c :: rest) false field row rows =
      parseRows rest false (field ++ [c]) row rows := by
  rw [parseRows.eq_def]
  split <;> simp_all

/-- Parser step: a doubled quote inside quotes appends one quote. -/
theorem parseRows_dq (rest : List Char) (field : List Char)
    (row : List String) (rows : List (List String)) :
    parseRows ('"' :: '"' :: rest) true field row rows =
      parseRows rest true (field ++ ['"']) row rows := by
  rw [parseRows.eq_def]
  split <;>
    solve
      | simp_all
      | (exfalso
         rename_i heq hflag
         injection heq with h5 h6
         exact absurd h5.symm (by assumption))
      | (exfalso
         rename_i hall heq hflag
         injection heq with h5 h6
         exact hall _ h6.symm)

/-- Parser step: a lone quote inside quotes closes the quoted state. -/
theorem parseRows_closeq (rest : List Char) (field : List Char)
    (row : List String) (rows : List (List String))
    (hq : rest.head? ≠ some '"') :
    parseRows ('"' :: rest) true field row rows =
      parseRows rest false field row rows := by
  rw [parseRows.eq_def]
  split <;>
    solve
      | simp_all
      | (exfalso
         rename_i heq hflag
         injection heq with h5 h6
         exact absurd h5.symm (by assumption))

/-- Parser step: an ordinary character inside quotes is appended. -/
theorem parseRows_qchar (c : Char) (rest : List Char) (field : List Char)
    (row : List String) (rows : List (List String)) (h1 : c ≠ '"') :
    parseRows (c :: rest) true field row rows =
      parseRows rest true (field ++ [c]) row rows := by
  rw [parseRows.eq_def]
  split <;> simp_all
/-- Consuming an unquoted field body appends its characters verbatim. -/
theorem parseRows_unquoted : ∀ (cs : List Char),
    (∀ c ∈ cs, c ≠ ',' ∧ c ≠ '"' ∧ c ≠ '\n' ∧ c ≠ '\r') →
    ∀ (rest : List Char) (field : List Char) (row : List String)
      (rows : List (List String)),
    parseRows (cs ++ rest) false field row rows =
      parseRows rest false (field ++ cs) row rows := by
  intro cs
  induction cs with
  | nil =>
      intro _ rest field row rows
      rw [List.nil_append, List.append_nil]
  | cons c cs2 ih =>
      intro hok rest field row rows
      obtain ⟨h2, h1, h3, h4⟩ := hok c (List.mem_cons_self _ _)
      rw [List.cons_append,
        parseRows_char c (cs2 ++ rest) field row rows h1 h2 h3 h4,
        ih (fun d hd => hok d (List.mem_cons_of_mem _ hd)) rest (field ++ [c])
          row rows,
        List.append_assoc]
      rfl

/-- Consuming an escaped quoted body up to its closing quote appends the
original characters and returns to the unquoted state. -/
theorem parseRows_qbody : ∀ (cs : List Char) (rest : List Char)
    (field : List Char) (row : List String) (rows : List (List String)),
    rest.head? ≠ some '"' →
    parseRows (escapeChars cs ++ '"' :: rest) true field row rows =
      parseRows rest false (field ++ cs) row rows := by
  intro cs
  induction cs with
  | nil =>
      intro rest field row rows hq
      rw [show escapeChars [] = [] from rfl, List.nil_append,
        parseRows_closeq rest field row rows hq, List.append_nil]
  | cons c cs2 ih =>
      intro rest field row rows hq
      by_cases hc : c = '"'
      · subst hc
        rw [show escapeChars ('"' :: cs2) = '"' :: '"' :: escapeChars cs2 from rfl,
          List.cons_append, List.cons_append, parseRows_dq,
          ih rest (field ++ ['"']) row rows hq, List.append_assoc]
        rfl
      · rw [show escapeChars (c :: cs2) = c :: escapeChars cs2 by
            simp [escapeChars, hc],
          List.cons_append, parseRows_qchar c _ field row rows hc,
          ih rest (field ++ [c]) row rows hq, List.append_assoc]
        rfl

/-- Characters of a field that needs no quoting are all ordinary. -/
theorem hasSpecial_false (s : String) (h : hasSpecial s = false) :
    ∀ c ∈ s.data, c ≠ ',' ∧ c ≠ '"' ∧ c ≠ '\n' ∧ c ≠ '\r' := by
  intro c hc
  rw [hasSpecial, List.any_eq_false] at h
  have h2 := h c hc
  simp only [Bool.or_eq_true, beq_iff_eq, not_or] at h2
  exact ⟨h2.1.1.1, h2.1.1.2, h2.1.2, h2.2⟩

/-- Consuming one serialized field (escaped as needed) accumulates the
original field characters. -/
theorem parseRows_field (s : String) (rest : List Char)
    (row : List String) (rows : List (List String))
    (hq : rest.head? ≠ some '"') :
    parseRows ((escapeField s).data ++ rest) false [] row rows =
      parseRows rest false s.data row rows := by
  rw [escapeField]
  by_cases hs : hasSpecial s = true
  · rw [if_pos hs]
    rw [show (String.mk ('"' :: (escapeChars s.data ++ ['"']))).data =
        '"' :: (escapeChars s.data ++ ['"']) from rfl,
      List.cons_append, parseRows_openq, List.append_assoc,
      show (['"'] : List Char) ++ rest = '"' :: rest from rfl,
      parseRows_qbody s.data rest [] row rows hq, List.nil_append]
  · rw [if_neg hs]
    have h0 := parseRows_unquoted s.data
      (hasSpecial_false s (Bool.not_eq_true _ ▸ hs)) rest [] row rows
    rw [List.nil_append] at h0
    exact h0

/-- Consuming one serialized line (fields joined by commas, ended by a
newline) appends exactly the original row. -/
theorem parseRows_line : ∀ (fs : List String) (rest : List Char)
    (row : List String) (rows : List (List String)), fs ≠ [] →
    parseRows
        (joinWith ',' ((fs.map escapeField).map String.data) ++ '\n' :: rest)
        false [] row rows =
      parseRows rest false [] [] (rows ++ [row ++ fs]) := by
  intro fs
  induction fs with
  | nil => intro rest row rows h; exact absurd rfl h
  | cons f fs2 ih =>
      intro rest row rows _
      cases fs2 with
      | nil =>
          rw [show joinWith ',' (([f].map escapeField).map String.data) =
              (escapeField f).data from rfl,
            parseRows_field f ('\n' :: rest) row rows (by simp),
            parseRows_newline,
            show String.mk f.data = f from rfl]
      | cons f2 fs3 =>
          rw [show joinWith ','
                (((f :: f2 :: fs3).map escapeField).map String.data) =
              (escapeField f).data ++
                ',' :: joinWith ','
                  (((f2 :: fs3).map escapeField).map String.data) from rfl,
            List.append_assoc,
            show (',' :: joinWith ','
                  (((f2 :: fs3).map escapeField).map String.data)) ++
                '\n' :: rest =
              ',' :: (joinWith ','
                  (((f2 :: fs3).map escapeField).map String.data) ++
                '\n' :: rest) from rfl,
            parseRows_field f _ row rows (by simp),
            parseRows_comma,
            show String.mk f.data = f from rfl,
            ih rest (row ++ [f]) rows (by simp),
            List.append_assoc]
          rfl

/-- Consuming a whole serialized text (lines joined by newlines plus the
trailing newline) returns exactly the original rows. -/
theorem parseRows_text : ∀ (rs : List (List String))
    (rows : List (List String)), rs ≠ [] → (∀ r ∈ rs, r ≠ []) →
    parseRows (joinWith '\n'
        (rs.map (fun r => joinWith ',' ((r.map escapeField).map String.data)))
        ++ ['\n']) false [] [] rows =
      rows ++ rs := by
  intro rs
  induction rs with
  | nil => intro rows h _; exact absurd rfl h
  | cons r rs2 ih =>
      intro rows _ hne
      cases rs2 with
      | nil =>
          rw [show joinWith '\n'
                ([r].map (fun r2 =>
                  joinWith ',' ((r2.map escapeField).map String.data))) =
              joinWith ',' ((r.map escapeField).map String.data) from rfl,
            show (joinWith ',' ((r.map escapeField).map String.data)) ++
                ['\n'] =
              (joinWith ',' ((r.map escapeField).map String.data)) ++
                '\n' :: [] from rfl,
            parseRows_line r [] [] rows (hne r (List.mem_cons_self _ _)),
            parseRows_stop]
          simp
      | cons r2 rs3 =>
          rw [show joinWith '\n'
                ((r :: r2 :: rs3).map (fun r0 =>
                  joinWith ',' ((r0.map escapeField).map String.data))) =
              joinWith ',' ((r.map escapeField).map String.data) ++
                '\n' :: joinWith '\n'
                  ((r2 :: rs3).map (fun r0 =>
                    joinWith ',' ((r0.map escapeField).map String.data)))
              from rfl,
            List.append_assoc,
            show ('\n' :: joinWith '\n'
                  ((r2 :: rs3).map (fun r0 =>
                    joinWith ',' ((r0.map escapeField).map String.data)))) ++
                ['\n'] =
              '\n' :: (joinWith '\n'
                  ((r2 :: rs3).map (fun r0 =>
                    joinWith ',' ((r0.map escapeField).map String.data))) ++
                ['\n']) from rfl,
            parseRows_line r _ [] rows (hne r (List.mem_cons_self _ _)),
            ih (rows ++ [[] ++ r]) (by simp)
              (fun x hx => hne x (List.mem_cons_of_mem _ hx))]
          simp

/-- A row already matching the header width is returned unchanged by the
serializer's padding loop. -/
theorem padRow_self (headers r : List String) (h : r.length = headers.length) :
    padRow headers r = r := by
  rw [padRow, ← h]
  apply List.ext_getElem
  · simp
  · intro i h1 h2
    rw [List.getElem_map, List.getElem_range, List.getD_eq_getElem?_getD,
      List.getElem?_eq_getElem h2]
    rfl
/-- The first cell produced by padding is the row's first cell (or the
empty string for an empty row). -/
theorem padRow_headD (headers r0 : List String) (hlen : 0 < headers.length) :
    (padRow headers r0).headD "" = r0.headD "" := by
  rw [padRow]
  cases hh : headers.length with
  | zero => omega
  | succ n =>
      rw [List.range_succ_eq_map, List.map_cons, List.headD_cons]
      cases r0 with
      | nil => rfl
      | cons x xs => rfl

/-- Claim C5 (amended): `parse(serialize(headers, rows))` returns exactly
the original headers and rows — including fields containing commas,
quotes, and embedded newlines — provided every row already has exactly
the header's column count (the serializer pads or truncates other rows)
and, in the single-column case, no row consists of one empty cell (the
parser drops blank lines). -/
theorem csv_roundtrip (headers : List String) (rows : List (List String))
    (hne : headers ≠ [])
    (hlen : ∀ r ∈ rows, r.length = headers.length)
    (hkeep : ∀ r ∈ rows, 1 < headers.length ∨ r.headD "" ≠ "") :
    parseCSV (serializeCSV headers rows) = ⟨headers, rows⟩ := by
  have hmapmap : (headers.map escapeField ::
        rows.map (fun row => (padRow headers row).map escapeField)).map
        (fun fields => joinWith ',' (fields.map String.data)) =
      (headers :: rows.map (padRow headers)).map
        (fun r => joinWith ',' ((r.map escapeField).map String.data)) := by
    simp [List.map_map, Function.comp]
  have hdata : (serializeCSV headers rows).data =
      joinWith '\n' ((headers :: rows.map (padRow headers)).map
        (fun r => joinWith ',' ((r.map escapeField).map String.data))) ++
        ['\n'] := by
    rw [← hmapmap]
    rfl
  have hall : ∀ r ∈ headers :: rows.map (padRow headers), r ≠ [] := by
    intro r hr
    rcases List.mem_cons.mp hr with rfl | hr2
    · exact hne
    · obtain ⟨r0, hr0, hpad⟩ := List.mem_map.mp hr2
      intro hcon
      have hplen : (padRow headers r0).length = headers.length := by
        rw [padRow]
        simp
      rw [hpad, hcon] at hplen
      exact hne (List.length_eq_zero.mp hplen.symm)
  have hrows2 : parseRows (serializeCSV headers rows).data false [] [] [] =
      headers :: rows.map (padRow headers) := by
    rw [hdata, parseRows_text (headers :: rows.map (padRow headers)) []
      (by simp) hall, List.nil_append]
  have hfilter : (rows.map (padRow headers)).filter
      (fun r => decide (1 < r.length) || r.headD "" != "") =
      rows.map (padRow headers) := by
    rw [List.filter_eq_self]
    intro a ha
    obtain ⟨r0, hr0, hpad⟩ := List.mem_map.mp ha
    have hal : a.length = headers.length := by
      rw [← hpad, padRow]
      simp
    rcases hkeep r0 hr0 with hgt | hhead
    · have hd : decide (1 < a.length) = true := by
        rw [hal]
        exact decide_eq_true hgt
      rw [hd, Bool.true_or]
    · have hh1 : 0 < headers.length := by
        cases headers with
        | nil => exact absurd rfl hne
        | cons x xs => simp
      have hd : (a.headD "" != "") = true := by
        rw [← hpad, padRow_headD headers r0 hh1]
        exact bne_iff_ne.mpr hhead
      rw [hd, Bool.or_true]
  have hmap2 : rows.map (padRow headers) = rows :=
    calc rows.map (padRow headers) = rows.map id :=
          List.map_congr_left (fun r hr => padRow_self headers r (hlen r hr))
      _ = rows := List.map_id rows
  have hP : parseCSV (serializeCSV headers rows) =
      CSVOut.mk
        ((parseRows (serializeCSV headers rows).data false [] [] []).headD [])
        ((parseRows (serializeCSV headers rows).data false [] [] []).tail.filter
          (fun r => decide (1 < r.length) || r.headD "" != "")) := rfl
  rw [hP, hrows2, List.headD_cons, List.tail_cons, hfilter, hmap2]

/-- Witness for C5 at a concrete table whose second column exercises a
comma, a quote, and an embedded newline. -/
theorem csv_roundtrip_witness :
    parseCSV (serializeCSV ["Key", "Title"]
      [["SB-1", "a,\"b\nc"], ["SB-2", "b"]]) =
      ⟨["Key", "Title"], [["SB-1", "a,\"b\nc"], ["SB-2", "b"]]⟩ :=
  csv_roundtrip ["Key", "Title"] [["SB-1", "a,\"b\nc"], ["SB-2", "b"]]
    (by decide) (by decide) (by decide)
/-- The key-to-id fold either leaves the lookup at its base value or
returns the id recorded for some listed raw issue with that key. -/
theorem keyToId_fold : ∀ (raws : List RawIssue) (f : String → Option Int)
    (t : String),
    (raws.foldl (fun g r => Function.update g r.key r.idOpt) f) t = f t ∨
    ∃ raw ∈ raws, raw.key = t ∧
      (raws.foldl (fun g r => Function.update g r.key r.idOpt) f) t =
        raw.idOpt := by
  intro raws
  induction raws with
  | nil => intro f t; exact Or.inl rfl
  | cons r rest ih =>
      intro f t
      rw [List.foldl_cons]
      rcases ih (Function.update f r.key r.idOpt) t with h | ⟨raw, hm, hk, hv⟩
      · by_cases hkey : r.key = t
        · subst hkey
          right
          refine ⟨r, List.mem_cons_self _ _, rfl, ?_⟩
          rw [h, Function.update_same]
        · left
          rw [h, Function.update_noteq (fun hc => hkey hc.symm)]
      · right
        exact ⟨raw, List.mem_cons_of_mem _ hm, hk, hv⟩

/-- A successful key lookup names the id of some loaded raw issue whose
key is the token. -/
theorem keyToId_some (raws : List RawIssue) (t : String) (v : Int)
    (h : keyToId raws t = some v) :
    ∃ raw ∈ raws, raw.key = t ∧ raw.idOpt = some v := by
  rw [keyToId] at h
  rcases keyToId_fold raws (fun _ => none) t with h2 | ⟨raw, hm, hk, hv⟩
  · rw [h] at h2
    simp at h2
  · rw [h] at hv
    exact ⟨raw, hm, hk, hv.symm⟩

/-- Claim C4 (amended): after load-time dependency resolution, every
retained dependency id is either the id of an issue present in the
loaded set (the token matched a known issue key with a nonzero id) or
the numeric value parsed from the dependency token itself — which the
code keeps even when no issue carries that id, so dangling numeric
references are retained rather than dropped.  Tokens that neither match
a key nor parse as a number are dropped. -/
theorem loadRows_dependency_resolution (headers : List String)
    (dataRows : List (List String)) :
    ∀ i ∈ (loadRows headers dataRows).issues, ∀ d ∈ i.dependsOn,
      (∃ j ∈ (loadRows headers dataRows).issues, j.id = d) ∨
      (∃ t ∈ loadDepTokens headers dataRows, jsParseInt t = some d) := by
  intro i hi d hd
  have hi2 : i ∈ ((dataRows.map (csvRowToIssue (buildColIndices headers))).filter
      (fun r => r.idOpt.isSome)).map
      (resolveRaw (keyToId
        ((dataRows.map (csvRowToIssue (buildColIndices headers))).filter
          (fun r => r.idOpt.isSome)))) := hi
  obtain ⟨r, hr, hres⟩ := List.mem_map.mp hi2
  have hd2 : d ∈ r.depTokens.filterMap (resolveDepToken (keyToId
      ((dataRows.map (csvRowToIssue (buildColIndices headers))).filter
        (fun r2 => r2.idOpt.isSome)))) := by
    rw [← hres] at hd
    exact hd
  obtain ⟨t, ht, htd⟩ := List.mem_filterMap.mp hd2
  cases hkm : keyToId ((dataRows.map (csvRowToIssue (buildColIndices headers))).filter
      (fun r2 => r2.idOpt.isSome)) t with
  | none =>
      right
      simp only [resolveDepToken, hkm] at htd
      exact ⟨t, List.mem_flatMap.mpr ⟨r, hr, ht⟩, htd⟩
  | some v =>
      simp only [resolveDepToken, hkm] at htd
      by_cases hv0 : (v == 0) = true
      · rw [if_pos hv0] at htd
        right
        exact ⟨t, List.mem_flatMap.mpr ⟨r, hr, ht⟩, htd⟩
      · rw [if_neg hv0] at htd
        have hvd := Option.some.inj htd
        left
        obtain ⟨raw, hraw, _, hid⟩ := keyToId_some _ t v hkm
        refine ⟨resolveRaw (keyToId
          ((dataRows.map (csvRowToIssue (buildColIndices headers))).filter
            (fun r2 => r2.idOpt.isSome))) raw,
          List.mem_map_of_mem _ hraw, ?_⟩
        show raw.idOpt.getD 0 = d
        rw [hid]
        exact hvd

/-- Witness for C4: the token "SB-2" resolves to the present issue id 2
of the two-row table. -/
theorem loadRows_dependency_resolution_witness :
    (∃ j ∈ (loadRows ["Issue id", "Issue key", "Inward issue link (Depends)"]
        [["1", "SB-1", "SB-2"], ["2", "SB-2", ""]]).issues, j.id = 2) ∨
    (∃ t ∈ loadDepTokens ["Issue id", "Issue key", "Inward issue link (Depends)"]
        [["1", "SB-1", "SB-2"], ["2", "SB-2", ""]], jsParseInt t = some 2) :=
  loadRows_dependency_resolution
    ["Issue id", "Issue key", "Inward issue link (Depends)"]
    [["1", "SB-1", "SB-2"], ["2", "SB-2", ""]]
    ((loadRows ["Issue id", "Issue key", "Inward issue link (Depends)"]
      [["1", "SB-1", "SB-2"], ["2", "SB-2", ""]]).issues.headD
      (mkIssue 0 "" "" "" 0 []))
    (by decide) 2 (by decide)
/-- Writing one cell leaves every other column index unchanged (reads of
positions beyond the original row see the empty string either way). -/
theorem getCell_setCell_ne (row : List String) (idx c : Int) (v : String)
    (hne : c ≠ idx) : getCell (setCell row idx v) c = getCell row c := by
  rw [setCell, getCell, getCell]
  by_cases hidx : idx < 0
  · rw [if_pos hidx]
  · rw [if_neg hidx]
    by_cases hc : c < 0
    · rw [if_pos hc, if_pos hc]
    · rw [if_neg hc, if_neg hc]
      have htn : idx.toNat ≠ c.toNat := by omega
      rw [List.getD_eq_getElem?_getD, List.getD_eq_getElem?_getD,
        List.getElem?_set_ne htn]
      by_cases hlt : c.toNat < row.length
      · rw [List.getElem?_append_left hlt]
      · have hge : row.length ≤ c.toNat := Nat.le_of_not_lt hlt
        rw [List.getElem?_append_right hge, List.getElem?_eq_none hge]
        cases h2 : (List.replicate (idx.toNat + 1 - row.length)
            "")[c.toNat - row.length]? with
        | none => rfl
        | some s =>
            have hs : s = "" :=
              List.eq_of_mem_replicate (List.getElem?_mem h2)
            rw [hs]
            rfl

/-- Reading a non-rewritten column through the eight unconditional cell
writes of `issueToCSVRow` yields the base row's cell. -/
theorem getCell_core (base : List String) (c : Int)
    (i1 i2 i3 i4 i5 i6 i7 i8 : Int) (v1 v2 v3 v4 v5 v6 v7 v8 : String)
    (h1 : c ≠ i1) (h2 : c ≠ i2) (h3 : c ≠ i3) (h4 : c ≠ i4) (h5 : c ≠ i5)
    (h6 : c ≠ i6) (h7 : c ≠ i7) (h8 : c ≠ i8) :
    getCell (setCell (setCell (setCell (setCell (setCell (setCell (setCell
      (setCell base i1 v1) i2 v2) i3 v3) i4 v4) i5 v5) i6 v6) i7 v7) i8 v8)
      c = getCell base c := by
  rw [getCell_setCell_ne _ _ _ _ h8, getCell_setCell_ne _ _ _ _ h7,
    getCell_setCell_ne _ _ _ _ h6, getCell_setCell_ne _ _ _ _ h5,
    getCell_setCell_ne _ _ _ _ h4, getCell_setCell_ne _ _ _ _ h3,
    getCell_setCell_ne _ _ _ _ h2, getCell_setCell_ne _ _ _ _ h1]

/-- A rebuilt row agrees with the issue's retained raw row on every
column other than the ten modeled ones. -/
theorem getCell_issueToCSVRow (ci : ColIdx) (hl : Nat) (issue : Issue)
    (row : List String) (hraw : issue.rawRow = some row) (c : Int)
    (hc1 : c ≠ ci.summary) (hc2 : c ≠ ci.issueKey) (hc3 : c ≠ ci.issueId)
    (hc4 : c ≠ ci.status) (hc5 : c ≠ ci.priority) (hc6 : c ≠ ci.assignee)
    (hc7 : c ≠ ci.description) (hc8 : c ≠ ci.originalEstimate)
    (hc9 : c ≠ ci.depends) (hc10 : c ≠ ci.finishToStart) :
    getCell (issueToCSVRow ci hl issue (some row)) c = getCell row c := by
  simp only [issueToCSVRow, hraw]
  by_cases h10 : (0:Int) ≤ ci.finishToStart
  · rw [if_pos h10, getCell_setCell_ne _ _ _ _ hc10]
    by_cases h9 : (0:Int) ≤ ci.depends
    · rw [if_pos h9, getCell_setCell_ne _ _ _ _ hc9]
      exact getCell_core row c _ _ _ _ _ _ _ _ _ _ _ _ _ _ _ _
        hc1 hc2 hc3 hc4 hc5 hc6 hc7 hc8
    · rw [if_neg h9]
      exact getCell_core row c _ _ _ _ _ _ _ _ _ _ _ _ _ _ _ _
        hc1 hc2 hc3 hc4 hc5 hc6 hc7 hc8
  · rw [if_neg h10]
    by_cases h9 : (0:Int) ≤ ci.depends
    · rw [if_pos h9, getCell_setCell_ne _ _ _ _ hc9]
      exact getCell_core row c _ _ _ _ _ _ _ _ _ _ _ _ _ _ _ _
        hc1 hc2 hc3 hc4 hc5 hc6 hc7 hc8
    · rw [if_neg h9]
      exact getCell_core row c _ _ _ _ _ _ _ _ _ _ _ _ _ _ _ _
        hc1 hc2 hc3 hc4 hc5 hc6 hc7 hc8

/-- Under duplicate-free ids, `find?` on an id returns the unique issue
carrying it. -/
theorem find?_id_nodup : ∀ (issues : List Issue),
    (issues.map Issue.id).Nodup → ∀ j ∈ issues, ∀ (d : Int), j.id = d →
    issues.find? (fun i => i.id == d) = some j := by
  intro issues
  induction issues with
  | nil => intro _ j hj; exact absurd hj (List.not_mem_nil j)
  | cons x rest ih =>
      intro hnd j hj d hjd
      rw [List.map_cons, List.nodup_cons] at hnd
      rcases List.mem_cons.mp hj with rfl | hj2
      · exact List.find?_cons_of_pos rest (by simp [hjd])
      · have hx : ¬ ((fun i => i.id == d) x = true) := by
          simp only [beq_iff_eq]
          intro hcon
          have hmem : j.id ∈ rest.map Issue.id :=
            List.mem_map_of_mem Issue.id hj2
          rw [hjd, ← hcon] at hmem
          exact hnd.1 hmem
        rw [List.find?_cons_of_neg rest hx]
        exact ih hnd.2 j hj2 d hjd

/-- A filterMap whose function is an if-guarded some is the map of the
filtered list. -/
theorem filterMap_eq_map_filter (p : List String → Bool)
    (g : List String → List String) :
    ∀ (l : List (List String)),
    l.filterMap (fun x => if p x then some (g x) else none) =
      (l.filter p).map g := by
  intro l
  induction l with
  | nil => rfl
  | cons x rest ih =>
      by_cases hp : p x = true
      · rw [List.filterMap_cons_some (by rw [if_pos hp]),
          List.filter_cons_of_pos hp, List.map_cons, ih]
      · rw [List.filterMap_cons_none (by rw [if_neg hp]),
          List.filter_cons_of_neg hp, ih]
/-- Claim C3 (amended): saving immediately after loading, with no issue
mutation in between, keeps exactly the rows whose id cell parses, in
their original order, each rebuilt from its own original row; every
column other than the ten modeled ones (Summary, Issue key, Issue id,
Status, Priority, Assignee, Description, Original Estimate and the two
dependency-link columns) keeps its original value, while the modeled
columns are rewritten to the canonical vocabulary rather than preserved
verbatim.  Stated under the data-model preconditions that the header row
is nonempty and loaded issue ids are unique. -/
theorem save_after_load (headers : List String) (origRows : List (List String))
    (hh : headers ≠ [])
    (hnd : ((loadRows headers origRows).issues.map Issue.id).Nodup) :
    saveRows headers origRows (loadRows headers origRows) =
      (origRows.filter (fun row =>
        (jsParseInt (getCell row (buildColIndices headers).issueId)).isSome)).map
        (fun row => issueToCSVRow (buildColIndices headers) headers.length
          (resolveRaw (keyToId
            ((origRows.map (csvRowToIssue (buildColIndices headers))).filter
              (fun r => r.idOpt.isSome)))
            (csvRowToIssue (buildColIndices headers) row)) (some row)) ∧
    ∀ row ∈ origRows, ∀ c : Int,
      c ∉ [(buildColIndices headers).summary, (buildColIndices headers).issueKey,
        (buildColIndices headers).issueId, (buildColIndices headers).status,
        (buildColIndices headers).priority, (buildColIndices headers).assignee,
        (buildColIndices headers).description,
        (buildColIndices headers).originalEstimate,
        (buildColIndices headers).depends,
        (buildColIndices headers).finishToStart] →
      getCell (issueToCSVRow (buildColIndices headers) headers.length
        (resolveRaw (keyToId
          ((origRows.map (csvRowToIssue (buildColIndices headers))).filter
            (fun r => r.idOpt.isSome)))
          (csvRowToIssue (buildColIndices headers) row)) (some row)) c =
        getCell row c := by
  have hlen0 : (headers.length == 0) = false := by
    cases headers with
    | nil => exact absurd rfl hh
    | cons x xs => rfl
  have hiss : (loadRows headers origRows).issues =
      ((origRows.map (csvRowToIssue (buildColIndices headers))).filter
        (fun r => r.idOpt.isSome)).map
        (resolveRaw (keyToId
          ((origRows.map (csvRowToIssue (buildColIndices headers))).filter
            (fun r => r.idOpt.isSome)))) := rfl
  have hmemid : ∀ row ∈ origRows, ∀ id : Int,
      jsParseInt (getCell row (buildColIndices headers).issueId) = some id →
      (resolveRaw (keyToId
          ((origRows.map (csvRowToIssue (buildColIndices headers))).filter
            (fun r => r.idOpt.isSome)))
        (csvRowToIssue (buildColIndices headers) row)) ∈
          (loadRows headers origRows).issues ∧
      (resolveRaw (keyToId
          ((origRows.map (csvRowToIssue (buildColIndices headers))).filter
            (fun r => r.idOpt.isSome)))
        (csvRowToIssue (buildColIndices headers) row)).id = id := by
    intro row hrow id hp
    have hio : (csvRowToIssue (buildColIndices headers) row).idOpt =
        jsParseInt (getCell row (buildColIndices headers).issueId) := rfl
    constructor
    · rw [hiss]
      refine List.mem_map_of_mem _
        (List.mem_filter.mpr ⟨List.mem_map_of_mem _ hrow, ?_⟩)
      show ((csvRowToIssue (buildColIndices headers) row).idOpt).isSome = true
      rw [hio, hp]
      rfl
    · show ((csvRowToIssue (buildColIndices headers) row).idOpt).getD 0 = id
      rw [hio, hp]
      rfl
  have hcont : ∀ row ∈ origRows, ∀ id : Int,
      jsParseInt (getCell row (buildColIndices headers).issueId) = some id →
      (((loadRows headers origRows).issues.map (fun i => i.id)).contains id) =
        true := by
    intro row hrow id hp
    obtain ⟨hj, hjid⟩ := hmemid row hrow id hp
    exact List.elem_iff.mpr (hjid ▸ List.mem_map_of_mem (fun i => i.id) hj)
  have hfind : ∀ row ∈ origRows, ∀ id : Int,
      jsParseInt (getCell row (buildColIndices headers).issueId) = some id →
      (loadRows headers origRows).issues.find? (fun i => i.id == id) =
        some (resolveRaw (keyToId
          ((origRows.map (csvRowToIssue (buildColIndices headers))).filter
            (fun r => r.idOpt.isSome)))
          (csvRowToIssue (buildColIndices headers) row)) := by
    intro row hrow id hp
    obtain ⟨hj, hjid⟩ := hmemid row hrow id hp
    exact find?_id_nodup _ hnd _ hj id hjid
  constructor
  · simp only [saveRows, hlen0, Bool.false_eq_true, if_false]
    have hpoint : ∀ row ∈ origRows,
        (jsParseInt (getCell row (buildColIndices headers).issueId)).bind
          (fun id =>
            if ((loadRows headers origRows).issues.map
                (fun i => i.id)).contains id then
              ((loadRows headers origRows).issues.find?
                (fun i => i.id == id)).map
                (fun issue => issueToCSVRow (buildColIndices headers)
                  headers.length issue (some row))
            else none) =
        (fun row2 =>
          if (jsParseInt
              (getCell row2 (buildColIndices headers).issueId)).isSome then
            some (issueToCSVRow (buildColIndices headers) headers.length
              (resolveRaw (keyToId
                ((origRows.map (csvRowToIssue (buildColIndices headers))).filter
                  (fun r => r.idOpt.isSome)))
                (csvRowToIssue (buildColIndices headers) row2)) (some row2))
          else none) row := by
      intro row hrow
      cases hp : jsParseInt (getCell row (buildColIndices headers).issueId) with
      | none =>
          dsimp only
          rw [hp]
          rfl
      | some id =>
          dsimp only
          rw [hp, Option.some_bind, if_pos (hcont row hrow id hp),
            hfind row hrow id hp, Option.map_some',
            if_pos Option.isSome_some]
    rw [List.filterMap_congr hpoint,
      filterMap_eq_map_filter
        (fun row2 =>
          (jsParseInt (getCell row2 (buildColIndices headers).issueId)).isSome)
        (fun row2 => issueToCSVRow (buildColIndices headers) headers.length
          (resolveRaw (keyToId
            ((origRows.map (csvRowToIssue (buildColIndices headers))).filter
              (fun r => r.idOpt.isSome)))
            (csvRowToIssue (buildColIndices headers) row2)) (some row2))
        origRows]
    have happ : ((loadRows headers origRows).issues.filter
        (fun i => !((origRows.filterMap (fun row =>
          (jsParseInt (getCell row (buildColIndices headers).issueId)).bind
            (fun id =>
              if ((loadRows headers origRows).issues.map
                  (fun i2 => i2.id)).contains id then
                some id
              else none))).contains i.id))) = [] := by
      rw [List.filter_eq_nil_iff]
      intro i hi
      have hi2 := hi
      rw [hiss] at hi2
      obtain ⟨r, hr, hres⟩ := List.mem_map.mp hi2
      obtain ⟨hrmap, hrsome⟩ := List.mem_filter.mp hr
      obtain ⟨row0, hrow0, hrowres⟩ := List.mem_map.mp hrmap
      cases hid : r.idOpt with
      | none =>
          rw [hid] at hrsome
          exact absurd hrsome (by simp)
      | some id0 =>
          have hp0 : jsParseInt
              (getCell row0 (buildColIndices headers).issueId) = some id0 :=
            calc jsParseInt (getCell row0 (buildColIndices headers).issueId)
                = (csvRowToIssue (buildColIndices headers) row0).idOpt := rfl
              _ = r.idOpt := by rw [hrowres]
              _ = some id0 := hid
          have hiid : i.id = id0 := by
            rw [← hres]
            show r.idOpt.getD 0 = id0
            rw [hid]
            rfl
          have hex : ∃ a ∈ (loadRows headers origRows).issues, a.id = id0 := by
            obtain ⟨hj, hjid⟩ := hmemid row0 hrow0 id0 hp0
            exact ⟨_, hj, hjid⟩
          simp
          refine ⟨row0, hrow0, ?_⟩
          rw [hp0, Option.some_bind, if_pos hex, hiid]
    rw [happ, List.map_nil, List.append_nil]
  · intro row hrow c hc
    simp only [List.mem_cons, List.not_mem_nil, or_false, not_or] at hc
    obtain ⟨h1, h2, h3, h4, h5, h6, h7, h8, h9, h10⟩ := hc
    exact getCell_issueToCSVRow (buildColIndices headers) headers.length _ row
      rfl c h1 h2 h3 h4 h5 h6 h7 h8 h9 h10

/-- Witness for C3: in a three-column table the unmodeled "Custom"
column of the rebuilt row keeps its original value. -/
theorem save_after_load_witness :
    getCell (issueToCSVRow (buildColIndices ["Issue id", "Status", "Custom"])
      (["Issue id", "Status", "Custom"] : List String).length
      (resolveRaw (keyToId
        (([["1", "Open", "keepme"]].map
          (csvRowToIssue (buildColIndices ["Issue id", "Status", "Custom"]))).filter
          (fun r => r.idOpt.isSome)))
        (csvRowToIssue (buildColIndices ["Issue id", "Status", "Custom"])
          ["1", "Open", "keepme"])) (some ["1", "Open", "keepme"])) 2 =
      "keepme" := by
  have h := (save_after_load ["Issue id", "Status", "Custom"]
    [["1", "Open", "keepme"]] (by decide) (by decide)).2
    ["1", "Open", "keepme"] (by decide) 2 (by decide)
  rw [h]
  rfl
end SB
